import Mathlib

/-!
# Verification of the clean-url core logic (`src/utils/clean-url-logic.ts`)

This file shallowly embeds the URL-cleaning engine of the repository in Lean 4 and
proves/refutes the frozen claims about it.

The repository code runs on a JavaScript host and uses the WHATWG platform
primitives `URL`, `URLSearchParams`, `decodeURIComponent`, `String.prototype.trim`,
`String.prototype.toLowerCase`, `String.prototype.includes` and
`String.prototype.startsWith`.  Those primitives are not part of the repository,
so they are modelled here as executable Lean functions that follow the WHATWG URL
standard and ECMAScript semantics on the fragment of inputs the claims exercise.
Documented simplifications of the platform model (each is consistent between the
model's parser and serializer, so the modelled pipeline behaves like the real one):

* characters with code point ≥ 0x100 are passed through percent-encoders
  verbatim instead of being encoded as UTF-8 byte sequences, and `%XX` escapes
  with `XX ≥ 0x80` decode to the Latin-1 code point instead of enforcing UTF-8;
* hosts are validated against the WHATWG forbidden-host-code-point list (with
  `%` also forbidden) and ASCII-lowercased; IDNA/punycode, IPv4 and IPv6
  normalization are not modelled;
* the special-scheme treatment of `\` as `/` and dot-segment (`.`/`..`) path
  normalization are not modelled (a `\` appearing where the real parser would
  convert it makes the model reject the URL instead);
* `file:` URLs are parsed like the other special schemes; like in the Node/Chrome
  hosts the code runs on, their `origin` serializes as `"null"`;
* the message of the `TypeError` thrown by the `URL` constructor is modelled as
  the Node message `"Invalid URL"` (the code only prefixes it, no claim reads it);
* `savedBytes` counts characters where JavaScript counts UTF-16 code units.

The functions of the repository itself (`TRACKING_PARAM_PATTERNS`, `isValidUrl`,
`cleanHashFragment`, `cleanUrl`, `cleanUrls`, `analyzeUrl`) are translated
directly from `src/utils/clean-url-logic.ts` (the first definition of each symbol
in that file, which is the copy the claim line numbers reference).
-/

namespace CleanUrl

/-! ## Generic list/string utilities (models of JS string primitives) -/

/-- Boolean prefix test on character lists (model of `String.prototype.startsWith`
and the building block of the substring test). -/
def leadsWith : List Char → List Char → Bool
  | [], _ => true
  | _ :: _, [] => false
  | a :: as, b :: bs => a == b && leadsWith as bs

/-- Boolean substring test (model of `String.prototype.includes`). -/
def hasSub (needle : List Char) : List Char → Bool
  | [] => needle.isEmpty
  | c :: t => leadsWith needle (c :: t) || hasSub needle t

/-- ASCII whitespace trimmed by `String.prototype.trim` (model restricted to the
whitespace characters that can actually reach this code). -/
def jsWhitespaceChar (c : Char) : Bool :=
  decide (c.toNat = 32 ∨ c.toNat = 9 ∨ c.toNat = 10 ∨ c.toNat = 13 ∨
    c.toNat = 0x0B ∨ c.toNat = 0x0C)

/-- Model of `String.prototype.trim`. -/
def jsTrim (s : String) : String :=
  ⟨((s.data.dropWhile jsWhitespaceChar).reverse.dropWhile jsWhitespaceChar).reverse⟩

/-- Model of `String.prototype.toLowerCase` (ASCII case folding). -/
def toLowerStr (s : String) : String := ⟨s.data.map Char.toLower⟩

/-- ASCII digit (the class `\d` of the source's regexes, and `Char.isDigit`). -/
def asciiDigit (c : Char) : Bool := decide (48 ≤ c.toNat ∧ c.toNat ≤ 57)

/-- ASCII letter (the class `[a-zA-Z]`, and `Char.isAlpha`). -/
def asciiAlpha (c : Char) : Bool :=
  decide ((65 ≤ c.toNat ∧ c.toNat ≤ 90) ∨ (97 ≤ c.toNat ∧ c.toNat ≤ 122))

/-- Split a character list at the first character satisfying `p`; the delimiter is
dropped.  Returns `none` when no character satisfies `p`. -/
def splitFirst (p : Char → Bool) : List Char → Option (List Char × List Char)
  | [] => none
  | c :: t =>
    if p c then some ([], t)
    else (splitFirst p t).map (fun r => (c :: r.1, r.2))

/-- Split a character list at the last character satisfying `p`; the delimiter is
dropped.  Returns `none` when no character satisfies `p`. -/
def splitLast (p : Char → Bool) : List Char → Option (List Char × List Char)
  | [] => none
  | c :: t =>
    match splitLast p t with
    | some r => some (c :: r.1, r.2)
    | none => if p c then some ([], t) else none

/-- Split into the longest prefix with no character satisfying `p`, and the rest
(starting with the first delimiter, which is kept). -/
def takeUntil (p : Char → Bool) : List Char → List Char × List Char
  | [] => ([], [])
  | c :: t =>
    if p c then ([], c :: t)
    else
      let r := takeUntil p t
      (c :: r.1, r.2)

/-- Split on `'&'`, keeping empty segments (the caller filters them). -/
def splitSegs : List Char → List (List Char)
  | [] => [[]]
  | c :: t =>
    if c = '&' then [] :: splitSegs t
    else
      match splitSegs t with
      | [] => [[c]]
      | s :: ss => (c :: s) :: ss

/-- Join segments with `'&'` separators. -/
def joinSegs : List (List Char) → List Char
  | [] => []
  | [x] => x
  | x :: xs => x ++ '&' :: joinSegs xs

/-- Drop one leading occurrence of `c` (used by the `URLSearchParams` constructor
for `'?'` and by the `hash`/`search` setters for their prefix characters). -/
def stripLeadChar (c : Char) (l : List Char) : List Char :=
  match l with
  | x :: t => if x == c then t else x :: t
  | [] => []

/-! ## Hexadecimal helpers -/

/-- Upper-case hexadecimal digit of a value `< 16`. -/
def hexDigitChar (n : Nat) : Char := "0123456789ABCDEF".data.getD n '0'

/-- Hexadecimal digit test (both cases), as in percent-decoding. -/
def isHexDigitChar (c : Char) : Bool :=
  if asciiDigit c then true
  else if 97 ≤ c.toNat ∧ c.toNat ≤ 102 then true
  else if 65 ≤ c.toNat ∧ c.toNat ≤ 70 then true
  else false

/-- Value of a hexadecimal digit. -/
def hexVal (c : Char) : Nat :=
  if asciiDigit c then c.toNat - 48
  else if 97 ≤ c.toNat then c.toNat - 87
  else c.toNat - 55

/-- Value of a decimal digit string (used for port numbers). -/
def decimalVal (l : List Char) : Nat :=
  l.foldl (fun a c => a * 10 + (c.toNat - 48)) 0

/-! ## `application/x-www-form-urlencoded` (model of `URLSearchParams`) -/

/-- Characters the urlencoded serializer leaves unescaped. -/
def formSafeChar (c : Char) : Bool :=
  decide ((65 ≤ c.toNat ∧ c.toNat ≤ 90) ∨ (97 ≤ c.toNat ∧ c.toNat ≤ 122) ∨
    (48 ≤ c.toNat ∧ c.toNat ≤ 57) ∨ c.toNat = 42 ∨ c.toNat = 45 ∨ c.toNat = 46 ∨
    c.toNat = 95)

/-- urlencoded byte serializer for one character (model: code points ≥ 0x100 are
passed through instead of being UTF-8 encoded). -/
def formEncodeChar (c : Char) : List Char :=
  if c.toNat = 32 then ['+']
  else if formSafeChar c then [c]
  else if c.toNat < 256 then ['%', hexDigitChar (c.toNat / 16), hexDigitChar (c.toNat % 16)]
  else [c]

/-- urlencoded serialization of a string. -/
def formEncodeL (l : List Char) : List Char := (l.map formEncodeChar).flatten

/-- Lenient urlencoded decoding: `'+'` becomes a space, valid `%XX` escapes are
decoded, anything else is kept verbatim (never fails, as in `URLSearchParams`). -/
def formDecodeL : List Char → List Char
  | [] => []
  | c :: t =>
    if c = '%' then
      match t with
      | h1 :: h2 :: t2 =>
        if isHexDigitChar h1 && isHexDigitChar h2 then
          Char.ofNat (hexVal h1 * 16 + hexVal h2) :: formDecodeL t2
        else c :: formDecodeL (h1 :: h2 :: t2)
      | [h1] => c :: formDecodeL [h1]
      | [] => [c]
    else if c = '+' then ' ' :: formDecodeL t
    else c :: formDecodeL t

/-- A name/value pair produced during cleaning (the `{ key, value }` objects of
the source; `.1` is the key, `.2` the value). -/
abbrev RemovedParam := String × String

/-- Decode one `key=value` segment (no `'='` means an empty value), as in the
urlencoded parser backing `URLSearchParams`. -/
def parsePairL (seg : List Char) : RemovedParam :=
  match splitFirst (fun c => c == '=') seg with
  | some r => (⟨formDecodeL r.1⟩, ⟨formDecodeL r.2⟩)
  | none => (⟨formDecodeL seg⟩, "")

/-- urlencoded parsing of a query string body: split on `'&'`, drop empty
segments, decode each pair. -/
def parseQueryBody (l : List Char) : List RemovedParam :=
  ((splitSegs l).filter (fun seg => !seg.isEmpty)).map parsePairL

/-- Model of `new URLSearchParams(s).entries()`: one leading `'?'` is stripped,
then the body is parsed. -/
def parseQuery (s : String) : List RemovedParam :=
  parseQueryBody (stripLeadChar '?' s.data)

/-- Model of `URLSearchParams.prototype.toString` for an entry list. -/
def serializeQuery (l : List RemovedParam) : String :=
  ⟨joinSegs (l.map (fun p => formEncodeL p.1.data ++ '=' :: formEncodeL p.2.data))⟩

/-! ## `decodeURIComponent` (strict percent-decoding) -/

/-- Strict percent-decoding; `none` models the `URIError` thrown on a `%` not
followed by two hexadecimal digits.  Model: a decoded byte is taken as a Latin-1
code point (UTF-8 well-formedness of multi-byte sequences is not enforced). -/
def decodeURIL : List Char → Option (List Char)
  | [] => some []
  | c :: t =>
    if c = '%' then
      match t with
      | h1 :: h2 :: t2 =>
        if isHexDigitChar h1 && isHexDigitChar h2 then
          (decodeURIL t2).map (fun r => Char.ofNat (hexVal h1 * 16 + hexVal h2) :: r)
        else none
      | [_] => none
      | [] => none
    else (decodeURIL t).map (fun r => c :: r)

/-- Model of `decodeURIComponent`. -/
def decodeURIComponent (s : String) : Option String :=
  (decodeURIL s.data).map (fun l => ⟨l⟩)

/-! ## WHATWG URL model -/

/-- The components of a parsed URL.  `host = none` means the URL has no
authority; in that case a path not starting with `'/'` is an opaque path. -/
structure URLRec where
  scheme : String
  username : String
  password : String
  host : Option String
  port : Option String
  path : String
  search : String
  fragment : String
  deriving DecidableEq, Repr

/-- The WHATWG special schemes (parsed with an authority). -/
def isSpecialScheme (s : String) : Bool :=
  ["http", "https", "ws", "wss", "ftp", "file"].contains s

/-- Schemes whose `origin` getter serializes as scheme://host[:port]; all other
schemes (including `file:` on the Node/Chrome hosts) yield `"null"`. -/
def hasOriginScheme (s : String) : Bool :=
  ["http", "https", "ws", "wss", "ftp"].contains s

/-- Default port of the special schemes (elided from serializations). -/
def defaultPortNum (s : String) : Option Nat :=
  if s = "http" then some 80
  else if s = "https" then some 443
  else if s = "ws" then some 80
  else if s = "wss" then some 443
  else if s = "ftp" then some 21
  else none

/-- Forbidden host code points (WHATWG list, with `%` also forbidden: the model
does not percent-decode hosts). -/
def forbiddenHostChar (c : Char) : Bool :=
  decide (c.toNat ≤ 0x20 ∨ c.toNat = 35 ∨ c.toNat = 37 ∨ c.toNat = 47 ∨ c.toNat = 58 ∨
    c.toNat = 60 ∨ c.toNat = 62 ∨ c.toNat = 63 ∨ c.toNat = 64 ∨ c.toNat = 91 ∨
    c.toNat = 92 ∨ c.toNat = 93 ∨ c.toNat = 94 ∨ c.toNat = 124 ∨ c.toNat = 0x7F)

/-- Percent-encode sets of the WHATWG URL standard (fragment, query, path,
userinfo, opaque-path).  Code points ≥ 0x100 pass through in this model. -/
def querySet (c : Char) : Bool :=
  decide (c.toNat ≤ 0x20 ∨ c.toNat = 34 ∨ c.toNat = 35 ∨ c.toNat = 60 ∨ c.toNat = 62 ∨
    c.toNat = 0x7F)

/-- Fragment percent-encode set. -/
def fragmentSet (c : Char) : Bool :=
  decide (c.toNat ≤ 0x20 ∨ c.toNat = 34 ∨ c.toNat = 60 ∨ c.toNat = 62 ∨ c.toNat = 0x60 ∨
    c.toNat = 0x7F)

/-- Path percent-encode set. -/
def pathSet (c : Char) : Bool :=
  querySet c || decide (c.toNat = 63 ∨ c.toNat = 0x60 ∨ c.toNat = 123 ∨ c.toNat = 125)

/-- Userinfo percent-encode set. -/
def userinfoSet (c : Char) : Bool :=
  pathSet c || decide (c.toNat = 47 ∨ c.toNat = 58 ∨ c.toNat = 59 ∨ c.toNat = 61 ∨
    c.toNat = 64 ∨ c.toNat = 91 ∨ c.toNat = 92 ∨ c.toNat = 93 ∨ c.toNat = 94 ∨
    c.toNat = 124)

/-- C0-control percent-encode set (used for opaque paths). -/
def opqSet (c : Char) : Bool := decide (c.toNat < 0x20 ∨ c.toNat = 0x7F)

/-- Percent-encode one character against a set. -/
def pctEncodeChar (S : Char → Bool) (c : Char) : List Char :=
  if S c then ['%', hexDigitChar (c.toNat / 16), hexDigitChar (c.toNat % 16)] else [c]

/-- Percent-encode a character list against a set. -/
def pctEncodeL (S : Char → Bool) (l : List Char) : List Char :=
  (l.map (pctEncodeChar S)).flatten

/-- Valid non-initial scheme character. -/
def schemeCharOk (c : Char) : Bool :=
  asciiAlpha c || asciiDigit c || decide (c.toNat = 43 ∨ c.toNat = 45 ∨ c.toNat = 46)

/-- Valid scheme: a letter followed by letters, digits, `+`, `-`, `.`. -/
def schemeOk : List Char → Bool
  | [] => false
  | c :: rest => asciiAlpha c && rest.all schemeCharOk

/-- Parse `host[:port]`: the host is validated and (for special schemes)
lowercased; the port must be decimal digits with value below 2^16, and the
scheme's default port is elided. -/
def parseHostPort (scheme : String) (hp : List Char) : Option (String × Option String) :=
  match splitFirst (fun c => c == ':') hp with
  | some r =>
    if r.1.all (fun c => !forbiddenHostChar c) then
      let host : String := ⟨if isSpecialScheme scheme then r.1.map Char.toLower else r.1⟩
      if r.2.isEmpty then some (host, none)
      else if r.2.all asciiDigit && decide (decimalVal r.2 < 65536) then
        match defaultPortNum scheme with
        | some d => if decimalVal r.2 == d then some (host, none) else some (host, some ⟨r.2⟩)
        | none => some (host, some ⟨r.2⟩)
      else none
    else none
  | none =>
    if hp.all (fun c => !forbiddenHostChar c) then
      some (⟨if isSpecialScheme scheme then hp.map Char.toLower else hp⟩, none)
    else none

/-- Parse an authority `[userinfo@]host[:port]`; userinfo splits at the last `@`,
username/password at the first `:`, and both halves are percent-encoded. -/
def parseAuthority (scheme : String) (auth : List Char) :
    Option (String × String × String × Option String) :=
  match splitLast (fun c => c == '@') auth with
  | some r =>
    let upw :=
      match splitFirst (fun c => c == ':') r.1 with
      | some q => (q.1, q.2)
      | none => (r.1, [])
    (parseHostPort scheme r.2).map (fun hp =>
      (⟨pctEncodeL userinfoSet upw.1⟩, ⟨pctEncodeL userinfoSet upw.2⟩, hp.1, hp.2))
  | none =>
    (parseHostPort scheme auth).map (fun hp => ("", "", hp.1, hp.2))

/-- Parse the `[?query][#fragment]` tail (input is empty or starts with the
delimiter that ended the previous component). -/
def parseQF : List Char → String × String
  | [] => ("", "")
  | c :: t =>
    if c = '?' then
      let r := takeUntil (fun c => c == '#') t
      (⟨pctEncodeL querySet r.1⟩,
        match r.2 with
        | _ :: f => ⟨pctEncodeL fragmentSet f⟩
        | [] => "")
    else if c = '#' then ("", ⟨pctEncodeL fragmentSet t⟩)
    else ("", "")

/-- Parse `path[?query][#fragment]` for a non-opaque path. -/
def parsePathQF (rem : List Char) : String × String × String :=
  let pr := takeUntil (fun c => c == '?' || c == '#') rem
  let qf := parseQF pr.2
  (⟨pctEncodeL pathSet pr.1⟩, qf.1, qf.2)

/-- Parse everything after `scheme:`.  Special schemes skip any run of slashes
and read an authority; other schemes read `//authority`, a rooted path, or an
opaque path. -/
def parseUrlAux (scheme : String) (rest : List Char) : Option URLRec :=
  if isSpecialScheme scheme then
    let rest2 := rest.dropWhile (fun c => c == '/')
    let ar := takeUntil (fun c => c == '/' || c == '?' || c == '#') rest2
    match parseAuthority scheme ar.1 with
    | none => none
    | some (u, pw, host, port) =>
      if host = "" then none
      else
        let pqf := parsePathQF ar.2
        some { scheme := scheme, username := u, password := pw, host := some host,
               port := port, path := if pqf.1 = "" then "/" else pqf.1,
               search := pqf.2.1, fragment := pqf.2.2 }
  else if rest.take 2 = ['/', '/'] then
    let ar := takeUntil (fun c => c == '/' || c == '?' || c == '#') (rest.drop 2)
    match parseAuthority scheme ar.1 with
    | none => none
    | some (u, pw, host, port) =>
      let pqf := parsePathQF ar.2
      some { scheme := scheme, username := u, password := pw, host := some host,
             port := port, path := pqf.1, search := pqf.2.1, fragment := pqf.2.2 }
  else if rest.take 1 = ['/'] then
    let pqf := parsePathQF rest
    some { scheme := scheme, username := "", password := "", host := none, port := none,
           path := pqf.1, search := pqf.2.1, fragment := pqf.2.2 }
  else
    let pr := takeUntil (fun c => c == '?' || c == '#') rest
    let qf := parseQF pr.2
    some { scheme := scheme, username := "", password := "", host := none, port := none,
           path := ⟨pctEncodeL opqSet pr.1⟩, search := qf.1, fragment := qf.2 }

/-- Model of `new URL(s)` for an absolute URL (no base). -/
def parseUrl (s : String) : Option URLRec :=
  match splitFirst (fun c => c == ':') s.data with
  | some r => if schemeOk r.1 then parseUrlAux ⟨r.1.map Char.toLower⟩ r.2 else none
  | none => none

/-- Characters of `[userinfo@]` in a serialization (empty when there are no
credentials). -/
def userinfoPart (r : URLRec) : List Char :=
  if r.username = "" ∧ r.password = "" then []
  else r.username.data ++ (if r.password = "" then [] else ':' :: r.password.data) ++ ['@']

/-- Characters of `:port` for an optional port. -/
def portTail : Option String → List Char
  | some p => ':' :: p.data
  | none => []

/-- Characters of `[:port]` in a serialization. -/
def portPart (r : URLRec) : List Char := portTail r.port

/-- Characters of `//[userinfo@]host[:port]` in a serialization (empty for URLs
without an authority). -/
def hostPart (r : URLRec) : List Char :=
  match r.host with
  | some h => '/' :: '/' :: (userinfoPart r ++ h.data ++ portPart r)
  | none => []

/-- Characters of `[?query]` in a serialization. -/
def searchPart (r : URLRec) : List Char :=
  if r.search = "" then [] else '?' :: r.search.data

/-- Characters of `[#fragment]` in a serialization. -/
def fragmentPart (r : URLRec) : List Char :=
  if r.fragment = "" then [] else '#' :: r.fragment.data

/-- Model of `URL.prototype.toString`/`href`. -/
def URLRec.serialize (r : URLRec) : String :=
  ⟨r.scheme.data ++ ':' :: (hostPart r ++ r.path.data ++ searchPart r ++ fragmentPart r)⟩

/-- Model of the `origin` getter: scheme://host[:port] for host-based special
schemes other than `file:`, the literal string `"null"` otherwise. -/
def URLRec.origin (r : URLRec) : String :=
  match r.host with
  | some h =>
    if hasOriginScheme r.scheme then
      ⟨r.scheme.data ++ ':' :: '/' :: '/' :: (h.data ++ portPart r)⟩
    else "null"
  | none => "null"

/-- Model of the `pathname` getter (no claim distinguishes opaque paths here). -/
def URLRec.pathname (r : URLRec) : String := r.path

/-- Model of the `search` getter (leading `'?'` when non-empty). -/
def URLRec.searchStr (r : URLRec) : String :=
  if r.search = "" then "" else "?" ++ r.search

/-- Model of the `hash` getter (leading `'#'` when non-empty). -/
def URLRec.hashStr (r : URLRec) : String :=
  if r.fragment = "" then "" else "#" ++ r.fragment

/-- Model of the `search` setter: strip one `'?'`, percent-encode with the query
set. -/
def URLRec.setSearch (r : URLRec) (v : String) : URLRec :=
  { r with search := ⟨pctEncodeL querySet (stripLeadChar '?' v.data)⟩ }

/-- Model of the `hash` setter: strip one `'#'`, percent-encode with the fragment
set. -/
def URLRec.setHash (r : URLRec) (v : String) : URLRec :=
  { r with fragment := ⟨pctEncodeL fragmentSet (stripLeadChar '#' v.data)⟩ }

/-! ## The repository code (`src/utils/clean-url-logic.ts`) -/

/-- The tracking pattern table, verbatim from the source. -/
def TRACKING_PARAM_PATTERNS : List String :=
  ["utm_source", "utm_medium", "utm_campaign", "utm_term", "utm_content", "utm_nooverride",
   "fbclid", "igshid", "ttclid", "tiktok_r", "li_fat_id", "mkt_tok", "trk",
   "gclid", "yclid", "dclid", "msclkid", "gad_source", "gad_campaignid", "gbraid",
   "utm_ad", "matchtype", "campaign_id", "ad_id",
   "ref", "referral", "referrer", "affiliate_id", "afid", "click_id", "clickid",
   "subid", "sub_id", "partner_id", "sr_share",
   "tag", "linkCode", "linkId", "ascsubtag", "camp", "creative",
   "pd_rd_i", "pd_rd_r", "pd_rd_w", "pd_rd_wg",
   "ck_subscriber_id", "mc_cid", "mc_eid", "_hsenc", "_hsmi",
   "sthash", "source", "campaign", "adgroup", "adposition", "_bhlid"]

/-- The key test of the cleaning loop: lowercase the key and compare for exact
equality against every (lowercased) table entry. -/
def isTrackingParam (key : String) : Bool :=
  let paramLower := toLowerStr key
  TRACKING_PARAM_PATTERNS.any (fun pattern => paramLower == toLowerStr pattern)

/-- `isValidUrl` from the source: `true` iff `new URL` succeeds. -/
def isValidUrl (urlString : String) : Bool := (parseUrl urlString).isSome

/-- The `/^\d+:/` test of the source (a regex on a host with no multiline flag:
one or more ASCII digits at the start, then a colon). -/
def startsDigitsColon (s : String) : Bool :=
  !(s.data.takeWhile asciiDigit).isEmpty &&
    ((s.data.dropWhile asciiDigit).head? == some ':')

/-- The `/^[a-zA-Z0-9_-]+\?/` test of the source. -/
def wordLikeChar (c : Char) : Bool :=
  asciiAlpha c || asciiDigit c || decide (c.toNat = 95 ∨ c.toNat = 45)

/-- Decoded content of the shape `anchor-name?params` (hash routing). -/
def startsWithPathLike (s : String) : Bool :=
  !(s.data.takeWhile wordLikeChar).isEmpty &&
    ((s.data.dropWhile wordLikeChar).head? == some '?')

/-- The malformed-tracking signature test of `cleanHashFragment`, verbatim. -/
def looksLikeMalformedTracking (hashContent decodedHash : String) : Bool :=
  hasSub "Vite%20RSC".data hashContent.data ||
  hasSub "Next.js".data hashContent.data ||
  hasSub "TypeScript".data hashContent.data ||
  startsDigitsColon hashContent ||
  startsDigitsColon decodedHash

/-- `cleanHashFragment` from the source.  `none` models returning `null`.  The
`try`/`catch` around the `URLSearchParams` parse has no failing branch because
the `URLSearchParams` constructor is total, so the model omits the catch. -/
def cleanHashFragment (hashContent : String) : Option String :=
  if hashContent = "" then none
  else
    match decodeURIComponent hashContent with
    | none => some hashContent
    | some decodedHash =>
      if leadsWith ['/'] decodedHash.data then some hashContent
      else if looksLikeMalformedTracking hashContent decodedHash then none
      else if startsWithPathLike decodedHash then some hashContent
      else if !decodedHash.data.contains '=' then some hashContent
      else
        let hashParams := parseQuery decodedHash
        let hasAnyTrackingParam := hashParams.any (fun p => isTrackingParam p.1)
        let cleanedHashParams := hashParams.filter (fun p => !isTrackingParam p.1)
        if !hasAnyTrackingParam then some hashContent
        else
          let cleanedString := serializeQuery cleanedHashParams
          if cleanedString = "" then none else some cleanedString

/-- The result object of `cleanUrl`.  Optional JS fields (`hasChanges`,
`savedBytes`, present only on success) are modelled as `Option`. -/
structure CleanResult where
  success : Bool
  error : Option String
  originalUrl : String
  cleanedUrl : Option String
  removedParams : List RemovedParam
  removedCount : Nat
  hasChanges : Option Bool := none
  savedBytes : Option Int := none
  deriving DecidableEq, Repr

/-- The failure result for a null/undefined/empty/non-string input. -/
def invalidInputResult (originalUrl : String) : CleanResult :=
  { success := false, error := some "Invalid URL: URL must be a non-empty string",
    originalUrl := originalUrl, cleanedUrl := none, removedParams := [], removedCount := 0 }

/-- The failure result for a string that does not validate. -/
def invalidFormatResult (originalUrl : String) : CleanResult :=
  { success := false, error := some "Invalid URL: Not a properly formatted URL",
    originalUrl := originalUrl, cleanedUrl := none, removedParams := [], removedCount := 0 }

/-- The failure result of the `catch` block (the rebuilding `new URL` threw). -/
def processingErrorResult (originalUrl : String) : CleanResult :=
  { success := false, error := some "URL processing error: Invalid URL",
    originalUrl := originalUrl, cleanedUrl := none, removedParams := [], removedCount := 0 }

/-- The `try` block of `cleanUrl`, operating on the parsed URL: partition the
query entries by the tracking test, rebuild from `origin + pathname`, re-attach
the surviving query and the cleaned hash, and serialize. -/
def cleanParsed (originalUrl : String) (url : URLRec) : CleanResult :=
  let originalParams := parseQuery url.searchStr
  let pr := originalParams.partition (fun p => isTrackingParam p.1)
  match parseUrl (url.origin ++ url.pathname) with
  | none => processingErrorResult originalUrl
  | some base =>
    let withSearch := if serializeQuery pr.2 = "" then base else base.setSearch (serializeQuery pr.2)
    let withHash :=
      if url.hashStr = "" then withSearch
      else
        match cleanHashFragment url.fragment with
        | some ch => if ch = "" then withSearch else withSearch.setHash ("#" ++ ch)
        | none => withSearch
    let finalCleanedUrl := withHash.serialize
    { success := true, error := none, originalUrl := originalUrl,
      cleanedUrl := some finalCleanedUrl, removedParams := pr.1,
      removedCount := pr.1.length, hasChanges := some (decide (pr.1.length > 0)),
      savedBytes := some ((originalUrl.length : Int) - (finalCleanedUrl.length : Int)) }

/-- `cleanUrl` from the source.  The `!originalUrl || typeof originalUrl !==
'string'` guard reduces, on an actual string, to the emptiness test. -/
def cleanUrl (originalUrl : String) : CleanResult :=
  if originalUrl = "" then invalidInputResult originalUrl
  else
    let trimmedUrl := jsTrim originalUrl
    if isValidUrl trimmedUrl then
      match parseUrl trimmedUrl with
      | some url => cleanParsed originalUrl url
      | none => invalidFormatResult originalUrl
    else invalidFormatResult originalUrl

/-- `cleanUrl` on a JS value that may not be a (non-empty) string: `none` models
`null`, `undefined` and non-string values, which take the same guard branch;
their echoed `originalUrl` is modelled as `""`. -/
def cleanUrlJS : Option String → CleanResult
  | none => invalidInputResult ""
  | some s => cleanUrl s

/-- `cleanUrls` from the source, on an actual array. -/
def cleanUrls (urls : List String) : List CleanResult := urls.map cleanUrl

/-- `cleanUrls` on a JS value that may not be an array: `none` models any
non-array input, for which the source throws synchronously. -/
def cleanUrlsJS : Option (List String) → Except String (List CleanResult)
  | none => Except.error "Input must be an array of URLs"
  | some urls => Except.ok (cleanUrls urls)

/-! ## `analyzeUrl` -/

/-- The six category buckets. -/
structure Categories where
  utm : List RemovedParam
  social : List RemovedParam
  ads : List RemovedParam
  affiliate : List RemovedParam
  email : List RemovedParam
  analytics : List RemovedParam
  deriving DecidableEq, Repr

/-- The per-category counts. -/
structure Summary where
  utm : Nat
  social : Nat
  ads : Nat
  affiliate : Nat
  email : Nat
  analytics : Nat
  deriving DecidableEq, Repr

/-- Empty category buckets. -/
def emptyCategories : Categories :=
  { utm := [], social := [], ads := [], affiliate := [], email := [], analytics := [] }

/-- All-zero summary. -/
def zeroSummary : Summary :=
  { utm := 0, social := 0, ads := 0, affiliate := 0, email := 0, analytics := 0 }

/-- The social-category key list of `analyzeUrl`, verbatim. -/
def socialKeys : List String :=
  ["fbclid", "igshid", "ttclid", "tiktok_r", "li_fat_id", "mkt_tok", "trk"]

/-- The ads-category key list of `analyzeUrl`, verbatim. -/
def adsKeys : List String :=
  ["gclid", "yclid", "dclid", "msclkid", "gad_source", "gad_campaignid", "gbraid",
   "utm_ad", "matchtype", "campaign_id", "ad_id"]

/-- The affiliate-category key list of `analyzeUrl`, verbatim. -/
def affiliateKeys : List String :=
  ["ref", "referral", "referrer", "affiliate_id", "afid", "click_id", "clickid",
   "subid", "sub_id", "partner_id", "sr_share", "tag", "linkcode", "linkid",
   "ascsubtag", "camp", "creative", "pd_rd_i", "pd_rd_r", "pd_rd_w", "pd_rd_wg"]

/-- The email-category key list of `analyzeUrl`, verbatim. -/
def emailKeys : List String :=
  ["ck_subscriber_id", "mc_cid", "mc_eid", "_hsenc", "_hsmi"]

/-- One step of the categorizing `forEach`: the if/else chain appends the
parameter to exactly one bucket. -/
def pushParam (cats : Categories) (p : RemovedParam) : Categories :=
  let paramLower := toLowerStr p.1
  if leadsWith "utm_".data paramLower.data then { cats with utm := cats.utm ++ [p] }
  else if socialKeys.contains paramLower then { cats with social := cats.social ++ [p] }
  else if adsKeys.contains paramLower then { cats with ads := cats.ads ++ [p] }
  else if affiliateKeys.contains paramLower then { cats with affiliate := cats.affiliate ++ [p] }
  else if emailKeys.contains paramLower then { cats with email := cats.email ++ [p] }
  else { cats with analytics := cats.analytics ++ [p] }

/-- The categorizing `forEach` of `analyzeUrl`. -/
def categorizeParams (l : List RemovedParam) : Categories :=
  l.foldl pushParam emptyCategories

/-- Concatenation of the six buckets (used to state the partition property). -/
def catsList (c : Categories) : List RemovedParam :=
  c.utm ++ c.social ++ c.ads ++ c.affiliate ++ c.email ++ c.analytics

/-- The result object of `analyzeUrl`. -/
structure AnalyzeResult extends CleanResult where
  categories : Categories
  summary : Summary
  deriving DecidableEq, Repr

/-- `analyzeUrl` from the source. -/
def analyzeUrl (url : String) : AnalyzeResult :=
  let result := cleanUrl url
  if result.success = false then
    { toCleanResult := result, categories := emptyCategories, summary := zeroSummary }
  else
    let cats := categorizeParams result.removedParams
    { toCleanResult := result, categories := cats,
      summary := { utm := cats.utm.length, social := cats.social.length,
                   ads := cats.ads.length, affiliate := cats.affiliate.length,
                   email := cats.email.length, analytics := cats.analytics.length } }

/-! ## Well-formedness of parsed URL records

`WF r` collects the invariants every record produced by `parseUrl` satisfies;
they are exactly what makes `URLRec.serialize` parse back to `r`. -/

/-- Well-formed URL record: the invariants established by the parser and
preserved by the `search`/`hash` setters. -/
structure WF (r : URLRec) : Prop where
  scheme_ok : schemeOk r.scheme.data = true
  scheme_lower : r.scheme.data.map Char.toLower = r.scheme.data
  username_ok : ∀ c ∈ r.username.data, userinfoSet c = false
  password_ok : ∀ c ∈ r.password.data, userinfoSet c = false
  host_none_ui : r.host = none → r.username = "" ∧ r.password = "" ∧ r.port = none
  host_chars : ∀ h, r.host = some h → ∀ c ∈ h.data, forbiddenHostChar c = false
  host_special : isSpecialScheme r.scheme = true →
    ∃ h, r.host = some h ∧ h ≠ "" ∧ h.data.map Char.toLower = h.data ∧
      r.path.data.head? = some '/'
  host_path : ∀ h, r.host = some h → r.path = "" ∨ r.path.data.head? = some '/'
  host_none_special : r.host = none → isSpecialScheme r.scheme = false
  host_none_slashes : r.host = none → r.path.data.take 2 ≠ ['/', '/']
  path_ok : r.host ≠ none ∨ r.path.data.head? = some '/' →
    ∀ c ∈ r.path.data, pathSet c = false
  path_opq : r.host = none → r.path.data.head? ≠ some '/' →
    ∀ c ∈ r.path.data, opqSet c = false ∧ c ≠ '?' ∧ c ≠ '#'
  port_ok : ∀ p, r.port = some p → p ≠ "" ∧ (∀ c ∈ p.data, asciiDigit c = true) ∧
    decimalVal p.data < 65536 ∧
    ∀ d, defaultPortNum r.scheme = some d → decimalVal p.data ≠ d
  search_ok : ∀ c ∈ r.search.data, querySet c = false
  fragment_ok : ∀ c ∈ r.fragment.data, fragmentSet c = false

/-! # Theorems

## Generic lemmas about the list utilities -/

theorem mk_inj {a b : List Char} (h : (⟨a⟩ : String) = ⟨b⟩) : a = b := by
  injection h

theorem mk_eq_empty_iff (l : List Char) : (⟨l⟩ : String) = "" ↔ l = [] := by
  constructor
  · intro h; exact mk_inj h
  · intro h; subst h; rfl

theorem str_eq_iff_data {s t : String} : s = t ↔ s.data = t.data := by
  constructor
  · intro h; subst h; rfl
  · intro h; exact congrArg String.mk h

theorem ne_of_set_false {S : Char → Bool} {c d : Char} (h : S c = false) (hd : S d = true) :
    c ≠ d := by
  rintro rfl; rw [h] at hd; cases hd

theorem leadsWith_single (c : Char) (l : List Char) :
    leadsWith [c] l = true ↔ l.head? = some c := by
  cases l with
  | nil => simp [leadsWith]
  | cons x t =>
    simp only [leadsWith, List.head?_cons, Option.some_inj, Bool.and_eq_true, beq_iff_eq]
    constructor
    · intro h; exact h.1.symm
    · intro h; exact ⟨h.symm, trivial⟩

theorem splitFirst_eq_none {p : Char → Bool} {l : List Char}
    (h : ∀ c ∈ l, p c = false) : splitFirst p l = none := by
  induction l with
  | nil => rfl
  | cons x t ih =>
    rw [splitFirst, if_neg (by simp [h x (by simp)]),
      ih (fun c hc => h c (by simp [hc]))]
    rfl

theorem splitFirst_append {p : Char → Bool} {a : List Char} {x : Char} (b : List Char)
    (h : ∀ c ∈ a, p c = false) (hx : p x = true) :
    splitFirst p (a ++ x :: b) = some (a, b) := by
  induction a with
  | nil => simp [splitFirst, hx]
  | cons y t ih =>
    rw [List.cons_append, splitFirst, if_neg (by simp [h y (by simp)]),
      ih (fun c hc => h c (by simp [hc]))]
    rfl

theorem splitFirst_sound {p : Char → Bool} {l a b : List Char}
    (h : splitFirst p l = some (a, b)) :
    ∃ x, p x = true ∧ l = a ++ x :: b ∧ ∀ c ∈ a, p c = false := by
  induction l generalizing a b with
  | nil => simp [splitFirst] at h
  | cons y t ih =>
    by_cases hy : p y = true
    · rw [splitFirst, if_pos hy] at h
      injection h with h
      injection h with h1 h2
      exact ⟨y, hy, by rw [← h1, ← h2]; rfl, by rw [← h1]; simp⟩
    · rw [splitFirst, if_neg hy] at h
      match ha : splitFirst p t with
      | none => rw [ha] at h; simp at h
      | some r =>
        rw [ha] at h
        simp only [Option.map_some'] at h
        injection h with h
        injection h with h1 h2
        obtain ⟨x, hx, ht, hall⟩ := ih (a := r.1) (b := r.2) (by simp [ha])
        refine ⟨x, hx, ?_, ?_⟩
        · rw [← h1, ← h2, ht]; rfl
        · intro c hc
          rw [← h1] at hc
          rcases List.mem_cons.mp hc with hc | hc
          · subst hc; simpa using hy
          · exact hall c hc

theorem splitLast_eq_none_iff {p : Char → Bool} {l : List Char} :
    splitLast p l = none ↔ ∀ c ∈ l, p c = false := by
  induction l with
  | nil => simp [splitLast]
  | cons x t ih =>
    rw [splitLast]
    match ht : splitLast p t with
    | some r =>
      constructor
      · intro h; simp at h
      · intro hall
        have : splitLast p t = none := ih.mpr (fun c hc => hall c (by simp [hc]))
        rw [ht] at this; simp at this
    | none =>
      have hall := ih.mp ht
      by_cases hx : p x = true
      · rw [if_pos hx]
        constructor
        · intro h; simp at h
        · intro h
          rw [h x (by simp)] at hx
          cases hx
      · simp only [Bool.not_eq_true] at hx
        rw [if_neg (by simp [hx])]
        constructor
        · intro _ c hc
          rcases List.mem_cons.mp hc with hc | hc
          · subst hc; exact hx
          · exact hall c hc
        · intro _; rfl

theorem splitLast_append {p : Char → Bool} (a : List Char) {x : Char} {b : List Char}
    (h : ∀ c ∈ b, p c = false) (hx : p x = true) :
    splitLast p (a ++ x :: b) = some (a, b) := by
  induction a with
  | nil =>
    rw [List.nil_append, splitLast, splitLast_eq_none_iff.mpr h, if_pos hx]
  | cons y t ih => rw [List.cons_append, splitLast, ih]

theorem splitLast_sound {p : Char → Bool} {l a b : List Char}
    (h : splitLast p l = some (a, b)) :
    ∃ x, p x = true ∧ l = a ++ x :: b ∧ ∀ c ∈ b, p c = false := by
  induction l generalizing a b with
  | nil => simp [splitLast] at h
  | cons y t ih =>
    rw [splitLast] at h
    match ht : splitLast p t with
    | some r =>
      rw [ht] at h
      injection h with h
      injection h with h1 h2
      obtain ⟨x, hx, hteq, hall⟩ := ih (a := r.1) (b := r.2) (by simp [ht])
      refine ⟨x, hx, ?_, ?_⟩
      · rw [← h1, ← h2, hteq]; rfl
      · rw [← h2]; exact hall
    | none =>
      rw [ht] at h
      by_cases hy : p y = true
      · rw [if_pos hy] at h
        injection h with h
        injection h with h1 h2
        refine ⟨y, hy, by rw [← h1, ← h2]; rfl, ?_⟩
        rw [← h2]
        exact splitLast_eq_none_iff.mp ht
      · rw [if_neg hy] at h
        cases h

theorem takeUntil_eq_self {p : Char → Bool} {l : List Char}
    (h : ∀ c ∈ l, p c = false) : takeUntil p l = (l, []) := by
  induction l with
  | nil => rfl
  | cons x t ih =>
    rw [takeUntil, if_neg (by simp [h x (by simp)])]
    simp [ih (fun c hc => h c (by simp [hc]))]

theorem takeUntil_append {p : Char → Bool} {a : List Char} {x : Char} (b : List Char)
    (h : ∀ c ∈ a, p c = false) (hx : p x = true) :
    takeUntil p (a ++ x :: b) = (a, x :: b) := by
  induction a with
  | nil => simp [takeUntil, hx]
  | cons y t ih =>
    rw [List.cons_append, takeUntil, if_neg (by simp [h y (by simp)])]
    simp [ih (fun c hc => h c (by simp [hc]))]

theorem takeUntil_fst_not {p : Char → Bool} (l : List Char) :
    ∀ c ∈ (takeUntil p l).1, p c = false := by
  induction l with
  | nil => simp [takeUntil]
  | cons x t ih =>
    by_cases hx : p x = true
    · simp [takeUntil, hx]
    · simp only [Bool.not_eq_true] at hx
      rw [takeUntil, if_neg (by simp [hx])]
      intro c hc
      rcases List.mem_cons.mp hc with hc | hc
      · subst hc; exact hx
      · exact ih c hc

theorem takeUntil_append_eq {p : Char → Bool} (l : List Char) :
    (takeUntil p l).1 ++ (takeUntil p l).2 = l := by
  induction l with
  | nil => rfl
  | cons x t ih =>
    by_cases hx : p x = true
    · simp [takeUntil, hx]
    · rw [takeUntil, if_neg (by simp [hx])]
      simpa using ih

theorem takeUntil_snd_cases {p : Char → Bool} (l : List Char) :
    (takeUntil p l).2 = [] ∨
      ∃ c t, (takeUntil p l).2 = c :: t ∧ p c = true := by
  induction l with
  | nil => left; rfl
  | cons x t ih =>
    by_cases hx : p x = true
    · right; exact ⟨x, t, by simp [takeUntil, hx], hx⟩
    · rw [takeUntil, if_neg (by simp [hx])]
      simpa using ih

theorem splitSegs_no_amp {l : List Char} (h : ∀ c ∈ l, c ≠ '&') : splitSegs l = [l] := by
  induction l with
  | nil => rfl
  | cons x t ih =>
    rw [splitSegs, if_neg (h x (by simp)), ih (fun c hc => h c (by simp [hc]))]

theorem splitSegs_append {a : List Char} (b : List Char) (h : ∀ c ∈ a, c ≠ '&') :
    splitSegs (a ++ '&' :: b) = a :: splitSegs b := by
  induction a with
  | nil => simp [splitSegs]
  | cons y t ih =>
    rw [List.cons_append, splitSegs, if_neg (h y (by simp)),
      ih (fun c hc => h c (by simp [hc]))]

/-! ## Lemmas about percent-encoding and form encoding -/

theorem pctEncodeChar_not {S : Char → Bool} {c : Char} (h : S c = false) :
    pctEncodeChar S c = [c] := by
  simp [pctEncodeChar, h]

theorem pctEncodeL_cons (S : Char → Bool) (x : Char) (t : List Char) :
    pctEncodeL S (x :: t) = pctEncodeChar S x ++ pctEncodeL S t := by
  simp [pctEncodeL]

theorem pctEncodeL_id {S : Char → Bool} {l : List Char} (h : ∀ c ∈ l, S c = false) :
    pctEncodeL S l = l := by
  induction l with
  | nil => rfl
  | cons x t ih =>
    rw [pctEncodeL_cons, pctEncodeChar_not (h x (by simp)),
      ih (fun c hc => h c (by simp [hc]))]
    rfl

theorem pctEncodeL_chars {S : Char → Bool}
    (hb : ∀ c, S c = true → c.toNat < 256)
    (hp : S '%' = false)
    (hh : ∀ n, n < 16 → S (hexDigitChar n) = false) :
    ∀ l, ∀ c ∈ pctEncodeL S l, S c = false := by
  intro l
  induction l with
  | nil => simp [pctEncodeL]
  | cons x t ih =>
    rw [pctEncodeL_cons]
    intro c hc
    rcases List.mem_append.mp hc with hc | hc
    · by_cases hx : S x = true
      · have hlt := hb x hx
        rw [pctEncodeChar, if_pos hx] at hc
        simp only [List.mem_cons, List.not_mem_nil, or_false] at hc
        rcases hc with rfl | rfl | rfl
        · exact hp
        · exact hh _ (by omega)
        · exact hh _ (by omega)
      · simp only [Bool.not_eq_true] at hx
        rw [pctEncodeChar_not hx] at hc
        simp only [List.mem_singleton] at hc
        subst hc
        exact hx
    · exact ih c hc

theorem char_eq_ofNat {c : Char} {n : Nat} (h : c.toNat = n) : c = Char.ofNat n := by
  rw [← h, Char.ofNat_toNat]

theorem hexVal_hexDigitChar : ∀ n, n < 16 → hexVal (hexDigitChar n) = n := by decide

theorem isHex_hexDigitChar : ∀ n, n < 16 → isHexDigitChar (hexDigitChar n) = true := by decide

theorem formDecodeL_cons_other {c : Char} (t : List Char) (h1 : c ≠ '%') (h2 : c ≠ '+') :
    formDecodeL (c :: t) = c :: formDecodeL t := by
  rw [formDecodeL.eq_def]
  simp [h1, h2]

theorem formDecodeL_plus (t : List Char) : formDecodeL ('+' :: t) = ' ' :: formDecodeL t := by
  rw [formDecodeL.eq_def]
  simp

theorem formDecodeL_pct {h1 h2 : Char} (t : List Char)
    (hh1 : isHexDigitChar h1 = true) (hh2 : isHexDigitChar h2 = true) :
    formDecodeL ('%' :: h1 :: h2 :: t) =
      Char.ofNat (hexVal h1 * 16 + hexVal h2) :: formDecodeL t := by
  rw [formDecodeL.eq_def]
  simp [hh1, hh2]

theorem formEncodeL_cons (x : Char) (t : List Char) :
    formEncodeL (x :: t) = formEncodeChar x ++ formEncodeL t := by
  simp [formEncodeL]

theorem formDecode_encodeChar (c : Char) (l : List Char) :
    formDecodeL (formEncodeChar c ++ l) = c :: formDecodeL l := by
  by_cases hsp : c.toNat = 32
  · rw [formEncodeChar, if_pos hsp, List.cons_append, List.nil_append, formDecodeL_plus]
    rw [char_eq_ofNat hsp]
  · by_cases hsafe : formSafeChar c = true
    · have h1 : c ≠ '%' := by rintro rfl; revert hsafe; decide
      have h2 : c ≠ '+' := by rintro rfl; revert hsafe; decide
      rw [formEncodeChar, if_neg hsp, if_pos hsafe, List.cons_append, List.nil_append,
        formDecodeL_cons_other l h1 h2]
    · by_cases hlt : c.toNat < 256
      · rw [formEncodeChar, if_neg hsp, if_neg hsafe, if_pos hlt]
        have e1 : c.toNat / 16 < 16 := by omega
        have e2 : c.toNat % 16 < 16 := by omega
        have e3 : c.toNat / 16 * 16 + c.toNat % 16 = c.toNat := by omega
        rw [List.cons_append, List.cons_append, List.cons_append, List.nil_append,
          formDecodeL_pct l (isHex_hexDigitChar _ e1) (isHex_hexDigitChar _ e2),
          hexVal_hexDigitChar _ e1, hexVal_hexDigitChar _ e2, e3, Char.ofNat_toNat]
      · have h1 : c ≠ '%' := by rintro rfl; exact hlt (by decide)
        have h2 : c ≠ '+' := by rintro rfl; exact hlt (by decide)
        rw [formEncodeChar, if_neg hsp, if_neg hsafe, if_neg hlt, List.cons_append,
          List.nil_append, formDecodeL_cons_other l h1 h2]

theorem formDecode_formEncode (l : List Char) : formDecodeL (formEncodeL l) = l := by
  induction l with
  | nil => rfl
  | cons x t ih => rw [formEncodeL_cons, formDecode_encodeChar, ih]

theorem formEncodeL_chars {l : List Char} :
    ∀ c ∈ formEncodeL l, formSafeChar c = true ∨ c = '+' ∨ c = '%' ∨
      (∃ n, n < 16 ∧ c = hexDigitChar n) ∨ 256 ≤ c.toNat := by
  induction l with
  | nil => simp [formEncodeL]
  | cons x t ih =>
    rw [formEncodeL_cons]
    intro c hc
    rcases List.mem_append.mp hc with hc | hc
    · by_cases hsp : x.toNat = 32
      · rw [formEncodeChar, if_pos hsp] at hc
        simp only [List.mem_singleton] at hc
        subst hc
        right; left; rfl
      · by_cases hsafe : formSafeChar x = true
        · rw [formEncodeChar, if_neg hsp, if_pos hsafe] at hc
          simp only [List.mem_singleton] at hc
          subst hc
          left; exact hsafe
        · by_cases hlt : x.toNat < 256
          · rw [formEncodeChar, if_neg hsp, if_neg hsafe, if_pos hlt] at hc
            simp only [List.mem_cons, List.not_mem_nil, or_false] at hc
            rcases hc with rfl | rfl | rfl
            · right; right; left; rfl
            · right; right; right; left; exact ⟨_, by omega, rfl⟩
            · right; right; right; left; exact ⟨_, by omega, rfl⟩
          · rw [formEncodeChar, if_neg hsp, if_neg hsafe, if_neg hlt] at hc
            simp only [List.mem_singleton] at hc
            subst hc
            right; right; right; right; omega
    · exact ih c hc

theorem hexd_facts : ∀ n, n < 16 → querySet (hexDigitChar n) = false ∧
    (hexDigitChar n).toNat ≠ 63 ∧ (hexDigitChar n).toNat ≠ 61 ∧
    (hexDigitChar n).toNat ≠ 38 ∧ jsWhitespaceChar (hexDigitChar n) = false := by decide

theorem formOut_facts {l : List Char} {c : Char} (hc : c ∈ formEncodeL l) :
    querySet c = false ∧ c.toNat ≠ 63 ∧ c.toNat ≠ 61 ∧ c.toNat ≠ 38 ∧
    jsWhitespaceChar c = false := by
  rcases formEncodeL_chars c hc with h | rfl | rfl | ⟨n, hn, rfl⟩ | h
  · simp only [formSafeChar, decide_eq_true_eq] at h
    refine ⟨by simp only [querySet, decide_eq_false_iff_not]; omega, by omega, by omega,
      by omega, by simp only [jsWhitespaceChar, decide_eq_false_iff_not]; omega⟩
  · decide
  · decide
  · exact hexd_facts n hn
  · refine ⟨by simp only [querySet, decide_eq_false_iff_not]; omega, by omega, by omega,
      by omega, by simp only [jsWhitespaceChar, decide_eq_false_iff_not]; omega⟩

theorem ne_char_of_toNat_ne {c d : Char} (h : c.toNat ≠ d.toNat) : c ≠ d :=
  fun e => h (congrArg Char.toNat e)

theorem formOut_ne_amp {l : List Char} {c : Char} (hc : c ∈ formEncodeL l) : c ≠ '&' :=
  ne_char_of_toNat_ne (formOut_facts hc).2.2.2.1

theorem formOut_ne_eqs {l : List Char} {c : Char} (hc : c ∈ formEncodeL l) : c ≠ '=' :=
  ne_char_of_toNat_ne (formOut_facts hc).2.2.1

theorem seg_ne_nil (k v : List Char) : formEncodeL k ++ '=' :: formEncodeL v ≠ [] := by
  simp

theorem seg_no_amp {k v : List Char} {c : Char}
    (hc : c ∈ formEncodeL k ++ '=' :: formEncodeL v) : c ≠ '&' := by
  rcases List.mem_append.mp hc with hc | hc
  · exact formOut_ne_amp hc
  · rcases List.mem_cons.mp hc with rfl | hc
    · decide
    · exact formOut_ne_amp hc

theorem parsePairL_seg (k v : String) :
    parsePairL (formEncodeL k.data ++ '=' :: formEncodeL v.data) = (k, v) := by
  rw [parsePairL, splitFirst_append (p := fun c => c == '=') (formEncodeL v.data)
    (fun c hc => by simp [formOut_ne_eqs hc]) (by decide)]
  simp only [formDecode_formEncode]

theorem joinSegs_cons_cons (x y : List Char) (xs : List (List Char)) :
    joinSegs (x :: y :: xs) = x ++ '&' :: joinSegs (y :: xs) := rfl

theorem stripLeadChar_id {c : Char} {l : List Char} (h : ∀ x ∈ l, x ≠ c) :
    stripLeadChar c l = l := by
  cases l with
  | nil => rfl
  | cons x t =>
    rw [stripLeadChar, if_neg (by simp [h x (by simp)])]

theorem parseQueryBody_joinSegs (l : List RemovedParam) :
    parseQueryBody
      (joinSegs (l.map (fun p => formEncodeL p.1.data ++ '=' :: formEncodeL p.2.data))) = l := by
  induction l with
  | nil => rfl
  | cons p rest ih =>
    cases rest with
    | nil =>
      show parseQueryBody (joinSegs [_]) = [p]
      rw [joinSegs, parseQueryBody,
        splitSegs_no_amp (fun c hc => seg_no_amp hc)]
      rw [List.filter_cons_of_pos (by simp [seg_ne_nil]), List.filter_nil]
      rw [List.map_cons, List.map_nil, parsePairL_seg]
    | cons q rest2 =>
      rw [List.map_cons, List.map_cons, joinSegs_cons_cons, parseQueryBody,
        splitSegs_append _ (fun c hc => seg_no_amp hc)]
      rw [List.filter_cons_of_pos (by simp [seg_ne_nil]), List.map_cons, parsePairL_seg]
      rw [List.map_cons, parseQueryBody] at ih
      rw [ih]

theorem serializeQuery_data (l : List RemovedParam) :
    (serializeQuery l).data =
      joinSegs (l.map (fun p => formEncodeL p.1.data ++ '=' :: formEncodeL p.2.data)) := rfl

theorem joinSegs_chars {P : Char → Prop} (hamp : P '&') :
    ∀ segs : List (List Char), (∀ s ∈ segs, ∀ c ∈ s, P c) →
      ∀ c ∈ joinSegs segs, P c := by
  intro segs
  induction segs with
  | nil => simp [joinSegs]
  | cons x xs ih =>
    intro hseg c hc
    cases xs with
    | nil => exact hseg x (by simp) c (by simpa [joinSegs] using hc)
    | cons y xs2 =>
      rw [joinSegs_cons_cons] at hc
      rcases List.mem_append.mp hc with hc | hc
      · exact hseg x (by simp) c hc
      · rcases List.mem_cons.mp hc with rfl | hc
        · exact hamp
        · exact ih (fun s hs => hseg s (by simp [hs])) c hc

theorem serializeQuery_chars {l : List RemovedParam} {c : Char}
    (hc : c ∈ (serializeQuery l).data) :
    querySet c = false ∧ c.toNat ≠ 63 ∧ jsWhitespaceChar c = false := by
  rw [serializeQuery_data] at hc
  refine joinSegs_chars
    (P := fun d => querySet d = false ∧ d.toNat ≠ 63 ∧ jsWhitespaceChar d = false)
    ?_ _ ?_ c hc
  · exact ⟨by decide, by decide, by decide⟩
  · intro s hs d hd
    simp only [List.mem_map] at hs
    obtain ⟨p, _, rfl⟩ := hs
    rcases List.mem_append.mp hd with hd | hd
    · have := formOut_facts hd
      exact ⟨this.1, this.2.1, this.2.2.2.2⟩
    · rcases List.mem_cons.mp hd with rfl | hd
      · exact ⟨by decide, by decide, by decide⟩
      · have := formOut_facts hd
        exact ⟨this.1, this.2.1, this.2.2.2.2⟩

theorem parseQuery_serializeQuery (l : List RemovedParam) :
    parseQuery (serializeQuery l) = l := by
  rw [parseQuery, stripLeadChar_id (fun x hx =>
    ne_char_of_toNat_ne (show x.toNat ≠ Char.toNat '?' from (serializeQuery_chars hx).2.1)),
    serializeQuery_data, parseQueryBody_joinSegs]

theorem serializeQuery_eq_empty_iff (l : List RemovedParam) :
    serializeQuery l = "" ↔ l = [] := by
  cases l with
  | nil => simp [serializeQuery, joinSegs]
  | cons p rest =>
    simp only [iff_false, List.cons_ne_nil, ne_eq]
    intro h
    have hd := congrArg String.data h
    rw [serializeQuery_data] at hd
    cases rest with
    | nil =>
      rw [List.map_cons, List.map_nil, joinSegs] at hd
      exact seg_ne_nil _ _ hd
    | cons q rest2 =>
      rw [List.map_cons, List.map_cons, joinSegs_cons_cons] at hd
      rcases List.append_eq_nil.mp hd with ⟨_, h2⟩
      cases h2

/-! ## Character-class lemmas for the URL model -/

theorem char_toNat_inj {c d : Char} (h : c.toNat = d.toNat) : c = d := by
  rw [← Char.ofNat_toNat c, ← Char.ofNat_toNat d, h]

theorem beq_char_false {c d : Char} (h : c.toNat ≠ d.toNat) : (c == d) = false := by
  cases hb : c == d
  · rfl
  · exact absurd (congrArg Char.toNat (eq_of_beq hb)) h

theorem schemeOk_chars {l : List Char} (h : schemeOk l = true) :
    ∀ c ∈ l, asciiAlpha c = true ∨ schemeCharOk c = true := by
  cases l with
  | nil => cases h
  | cons x t =>
    rw [schemeOk, Bool.and_eq_true] at h
    intro c hc
    rcases List.mem_cons.mp hc with rfl | hc
    · left; exact h.1
    · right; exact List.all_eq_true.mp h.2 c hc

theorem schemeChar_toNat {c : Char} (h : asciiAlpha c = true ∨ schemeCharOk c = true) :
    (65 ≤ c.toNat ∧ c.toNat ≤ 90) ∨ (97 ≤ c.toNat ∧ c.toNat ≤ 122) ∨
    (48 ≤ c.toNat ∧ c.toNat ≤ 57) ∨ c.toNat = 43 ∨ c.toNat = 45 ∨ c.toNat = 46 := by
  rcases h with h | h
  · simp only [asciiAlpha, decide_eq_true_eq] at h; omega
  · simp only [schemeCharOk, asciiAlpha, asciiDigit, Bool.or_eq_true,
      decide_eq_true_eq] at h
    omega

theorem char_toNat_ofNat {n : Nat} (hv : n.isValidChar) : (Char.ofNat n).toNat = n := by
  unfold Char.ofNat
  rw [dif_pos hv]
  rfl

theorem toLower_toNat (c : Char) :
    (Char.toLower c).toNat = if 65 ≤ c.toNat ∧ c.toNat ≤ 90 then c.toNat + 32 else c.toNat := by
  rw [Char.toLower]
  by_cases h : c.toNat ≥ 65 ∧ c.toNat ≤ 90
  · rw [if_pos h, if_pos (by omega)]
    exact char_toNat_ofNat (Or.inl (by omega))
  · rw [if_neg h, if_neg (by omega)]

theorem toLower_eq_self {c : Char} (h : ¬(65 ≤ c.toNat ∧ c.toNat ≤ 90)) :
    Char.toLower c = c := by
  rw [Char.toLower, if_neg (by omega)]

theorem toLower_idem (c : Char) : Char.toLower (Char.toLower c) = Char.toLower c := by
  by_cases h : 65 ≤ c.toNat ∧ c.toNat ≤ 90
  · apply toLower_eq_self
    rw [toLower_toNat, if_pos h]
    omega
  · rw [toLower_eq_self h, toLower_eq_self h]

theorem map_toLower_idem (l : List Char) :
    (l.map Char.toLower).map Char.toLower = l.map Char.toLower := by
  rw [List.map_map]
  exact List.map_congr_left (fun c _ => toLower_idem c)

theorem querySet_bound : ∀ c, querySet c = true → c.toNat < 256 := by
  intro c h; simp only [querySet, decide_eq_true_eq] at h; omega

theorem fragmentSet_bound : ∀ c, fragmentSet c = true → c.toNat < 256 := by
  intro c h; simp only [fragmentSet, decide_eq_true_eq] at h; omega

theorem pathSet_bound : ∀ c, pathSet c = true → c.toNat < 256 := by
  intro c h
  simp only [pathSet, querySet, Bool.or_eq_true, decide_eq_true_eq] at h
  omega

theorem userinfoSet_bound : ∀ c, userinfoSet c = true → c.toNat < 256 := by
  intro c h
  simp only [userinfoSet, pathSet, querySet, Bool.or_eq_true, decide_eq_true_eq] at h
  omega

theorem opqSet_bound : ∀ c, opqSet c = true → c.toNat < 256 := by
  intro c h; simp only [opqSet, decide_eq_true_eq] at h; omega

theorem pct_query_chars {l : List Char} : ∀ c ∈ pctEncodeL querySet l, querySet c = false :=
  pctEncodeL_chars querySet_bound (by decide) (by decide) l

theorem pct_fragment_chars {l : List Char} :
    ∀ c ∈ pctEncodeL fragmentSet l, fragmentSet c = false :=
  pctEncodeL_chars fragmentSet_bound (by decide) (by decide) l

theorem pct_path_chars {l : List Char} : ∀ c ∈ pctEncodeL pathSet l, pathSet c = false :=
  pctEncodeL_chars pathSet_bound (by decide) (by decide) l

theorem pct_userinfo_chars {l : List Char} :
    ∀ c ∈ pctEncodeL userinfoSet l, userinfoSet c = false :=
  pctEncodeL_chars userinfoSet_bound (by decide) (by decide) l

/-- Unpack `userinfoSet c = false` into arithmetic facts about the code point. -/
theorem userinfoSet_false_arith {c : Char} (h : userinfoSet c = false) :
    32 < c.toNat ∧ c.toNat ≠ 34 ∧ c.toNat ≠ 35 ∧ c.toNat ≠ 60 ∧ c.toNat ≠ 62 ∧
    c.toNat ≠ 127 ∧ c.toNat ≠ 63 ∧ c.toNat ≠ 96 ∧ c.toNat ≠ 123 ∧ c.toNat ≠ 125 ∧
    c.toNat ≠ 47 ∧ c.toNat ≠ 58 ∧ c.toNat ≠ 59 ∧ c.toNat ≠ 61 ∧ c.toNat ≠ 64 ∧
    c.toNat ≠ 91 ∧ c.toNat ≠ 92 ∧ c.toNat ≠ 93 ∧ c.toNat ≠ 94 ∧ c.toNat ≠ 124 := by
  simp only [userinfoSet, pathSet, querySet, Bool.or_eq_false_iff,
    decide_eq_false_iff_not] at h
  omega

/-- Unpack `forbiddenHostChar c = false` into arithmetic facts. -/
theorem forbidden_false_arith {c : Char} (h : forbiddenHostChar c = false) :
    32 < c.toNat ∧ c.toNat ≠ 35 ∧ c.toNat ≠ 37 ∧ c.toNat ≠ 47 ∧ c.toNat ≠ 58 ∧
    c.toNat ≠ 60 ∧ c.toNat ≠ 62 ∧ c.toNat ≠ 63 ∧ c.toNat ≠ 64 ∧ c.toNat ≠ 91 ∧
    c.toNat ≠ 92 ∧ c.toNat ≠ 93 ∧ c.toNat ≠ 94 ∧ c.toNat ≠ 124 ∧ c.toNat ≠ 127 := by
  simp only [forbiddenHostChar, decide_eq_false_iff_not] at h
  omega

/-- Unpack `querySet c = false`. -/
theorem querySet_false_arith {c : Char} (h : querySet c = false) :
    32 < c.toNat ∧ c.toNat ≠ 34 ∧ c.toNat ≠ 35 ∧ c.toNat ≠ 60 ∧ c.toNat ≠ 62 ∧
    c.toNat ≠ 127 := by
  simp only [querySet, decide_eq_false_iff_not] at h
  omega

/-- Unpack `pathSet c = false`. -/
theorem pathSet_false_arith {c : Char} (h : pathSet c = false) :
    32 < c.toNat ∧ c.toNat ≠ 34 ∧ c.toNat ≠ 35 ∧ c.toNat ≠ 60 ∧ c.toNat ≠ 62 ∧
    c.toNat ≠ 127 ∧ c.toNat ≠ 63 ∧ c.toNat ≠ 96 ∧ c.toNat ≠ 123 ∧ c.toNat ≠ 125 := by
  simp only [pathSet, querySet, Bool.or_eq_false_iff, decide_eq_false_iff_not] at h
  omega

/-- Unpack `fragmentSet c = false`. -/
theorem fragmentSet_false_arith {c : Char} (h : fragmentSet c = false) :
    32 < c.toNat ∧ c.toNat ≠ 34 ∧ c.toNat ≠ 60 ∧ c.toNat ≠ 62 ∧ c.toNat ≠ 96 ∧
    c.toNat ≠ 127 := by
  simp only [fragmentSet, decide_eq_false_iff_not] at h
  omega

theorem asciiDigit_arith {c : Char} (h : asciiDigit c = true) :
    48 ≤ c.toNat ∧ c.toNat ≤ 57 := by
  simpa [asciiDigit] using h

/-- The three-delimiter predicate of the authority scan is false on a character
whose code point is none of `/`, `?`, `#`. -/
theorem delim3_false {c : Char} (h47 : c.toNat ≠ 47) (h63 : c.toNat ≠ 63)
    (h35 : c.toNat ≠ 35) : (c == '/' || c == '?' || c == '#') = false := by
  rw [beq_char_false (show c.toNat ≠ Char.toNat '/' from h47),
    beq_char_false (show c.toNat ≠ Char.toNat '?' from h63),
    beq_char_false (show c.toNat ≠ Char.toNat '#' from h35)]
  rfl

/-- The query/fragment delimiter predicate. -/
theorem delim2_false {c : Char} (h63 : c.toNat ≠ 63) (h35 : c.toNat ≠ 35) :
    (c == '?' || c == '#') = false := by
  rw [beq_char_false (show c.toNat ≠ Char.toNat '?' from h63),
    beq_char_false (show c.toNat ≠ Char.toNat '#' from h35)]
  rfl

theorem takeUntil_append_general {p : Char → Bool} {a b : List Char}
    (ha : ∀ c ∈ a, p c = false)
    (hb : b = [] ∨ ∃ x t, b = x :: t ∧ p x = true) :
    takeUntil p (a ++ b) = (a, b) := by
  rcases hb with rfl | ⟨x, t, rfl, hx⟩
  · rw [List.append_nil]; exact takeUntil_eq_self ha
  · exact takeUntil_append t ha hx

theorem dropWhile_eq_self_of_head {p : Char → Bool} {l : List Char} {x : Char}
    (hh : l.head? = some x) (hx : p x = false) : List.dropWhile p l = l := by
  cases l with
  | nil => rfl
  | cons y t =>
    simp only [List.head?_cons, Option.some_inj] at hh
    subst hh
    rw [List.dropWhile_cons, if_neg (by simp [hx])]

/-! ## Reparsing a serialized URL -/

theorem str_ne_empty_data {s : String} (h : s ≠ "") : ∃ x t, s.data = x :: t := by
  cases hd : s.data with
  | nil => exact absurd (str_eq_iff_data.mpr (by rw [hd])) h
  | cons x t => exact ⟨x, t, rfl⟩

theorem parseQF_nil : parseQF [] = ("", "") := rfl

theorem parseQF_hash (t : List Char) :
    parseQF ('#' :: t) = ("", ⟨pctEncodeL fragmentSet t⟩) := by
  rw [parseQF.eq_def]
  simp

theorem parseQF_quest (t : List Char) :
    parseQF ('?' :: t) =
      (⟨pctEncodeL querySet (takeUntil (fun c => c == '#') t).1⟩,
        match (takeUntil (fun c => c == '#') t).2 with
        | _ :: f => (⟨pctEncodeL fragmentSet f⟩ : String)
        | [] => "") := by
  rw [parseQF.eq_def]
  simp

theorem parseQF_parts (se fr : String)
    (hs : ∀ c ∈ se.data, querySet c = false)
    (hf : ∀ c ∈ fr.data, fragmentSet c = false) :
    parseQF ((if se = "" then ([] : List Char) else '?' :: se.data) ++
      (if fr = "" then ([] : List Char) else '#' :: fr.data)) = (se, fr) := by
  by_cases hse : se = ""
  · subst hse
    rw [if_pos rfl, List.nil_append]
    by_cases hfe : fr = ""
    · subst hfe
      rfl
    · rw [if_neg hfe, parseQF_hash, pctEncodeL_id hf]
  · rw [if_neg hse, List.cons_append, parseQF_quest]
    have hnohash : ∀ c ∈ se.data, (c == '#') = false := fun c hc =>
      beq_char_false (show c.toNat ≠ Char.toNat '#' from (querySet_false_arith (hs c hc)).2.2.1)
    by_cases hfe : fr = ""
    · rw [if_pos hfe, List.append_nil, takeUntil_eq_self hnohash]
      simp only [pctEncodeL_id hs]
      rw [hfe]
    · rw [if_neg hfe, takeUntil_append fr.data hnohash (by decide)]
      simp only [pctEncodeL_id hs, pctEncodeL_id hf]

theorem parsePathQF_parts (pa se fr : String)
    (hp : ∀ c ∈ pa.data, pathSet c = false)
    (hs : ∀ c ∈ se.data, querySet c = false)
    (hf : ∀ c ∈ fr.data, fragmentSet c = false) :
    parsePathQF (pa.data ++ ((if se = "" then ([] : List Char) else '?' :: se.data) ++
      (if fr = "" then ([] : List Char) else '#' :: fr.data))) = (pa, se, fr) := by
  rw [parsePathQF]
  rw [takeUntil_append_general
    (fun c hc => delim2_false (pathSet_false_arith (hp c hc)).2.2.2.2.2.2.1
      (pathSet_false_arith (hp c hc)).2.2.1) ?_]
  · simp only [pctEncodeL_id hp, parseQF_parts se fr hs hf]
  · by_cases hse : se = ""
    · by_cases hfe : fr = ""
      · left
        rw [if_pos hse, if_pos hfe]
        rfl
      · right
        rw [if_pos hse, if_neg hfe, List.nil_append]
        exact ⟨'#', fr.data, rfl, by decide⟩
    · right
      rw [if_neg hse, List.cons_append]
      exact ⟨'?', se.data ++ (if fr = "" then ([] : List Char) else '#' :: fr.data), rfl, by decide⟩

theorem parseHostPort_parts (scheme h : String) (port : Option String)
    (hch : ∀ c ∈ h.data, forbiddenHostChar c = false)
    (hlow : isSpecialScheme scheme = true → h.data.map Char.toLower = h.data)
    (hport : ∀ p, port = some p → p ≠ "" ∧ (∀ c ∈ p.data, asciiDigit c = true) ∧
      decimalVal p.data < 65536 ∧
      ∀ d, defaultPortNum scheme = some d → decimalVal p.data ≠ d) :
    parseHostPort scheme (h.data ++ portTail port) = some (h, port) := by
  have hhost : (if isSpecialScheme scheme = true then h.data.map Char.toLower else h.data)
      = h.data := by
    by_cases hsp : isSpecialScheme scheme = true
    · rw [if_pos hsp, hlow hsp]
    · rw [if_neg hsp]
  have hnc : ∀ c ∈ h.data, (c == ':') = false := fun c hc =>
    beq_char_false (show c.toNat ≠ Char.toNat ':' from
      (forbidden_false_arith (hch c hc)).2.2.2.2.1)
  have hall : h.data.all (fun c => !forbiddenHostChar c) = true :=
    List.all_eq_true.mpr (fun c hc => by rw [hch c hc]; rfl)
  cases port with
  | none =>
    rw [portTail, List.append_nil, parseHostPort, splitFirst_eq_none hnc]
    simp only [hall, if_pos trivial, hhost]
  | some p =>
    rw [portTail]
    obtain ⟨hp1, hp2, hp3, hp4⟩ := hport p rfl
    obtain ⟨x, t, hx⟩ := str_ne_empty_data hp1
    rw [parseHostPort, splitFirst_append p.data hnc (by decide)]
    dsimp only
    rw [if_pos hall, hhost, if_neg (by simp [hx]),
      if_pos (by
        simp only [Bool.and_eq_true, decide_eq_true_eq]
        exact ⟨List.all_eq_true.mpr hp2, hp3⟩)]
    cases hd : defaultPortNum scheme with
    | some d =>
      dsimp only
      rw [if_neg (by
        simp only [beq_iff_eq]
        exact hp4 d hd)]
    | none => rfl

theorem userinfo_no_at {r : URLRec} (h : String)
    (hch : ∀ c ∈ h.data, forbiddenHostChar c = false)
    (hport : ∀ p, r.port = some p → ∀ c ∈ p.data, asciiDigit c = true) :
    ∀ c ∈ h.data ++ portPart r, (c == '@') = false := by
  intro c hc
  rcases List.mem_append.mp hc with hc | hc
  · exact beq_char_false (show c.toNat ≠ Char.toNat '@' from
      (forbidden_false_arith (hch c hc)).2.2.2.2.2.2.2.2.1)
  · rw [portPart] at hc
    cases hp : r.port with
    | none => rw [hp] at hc; cases hc
    | some p =>
      rw [hp] at hc
      rcases List.mem_cons.mp hc with rfl | hc
      · decide
      · have hdg := asciiDigit_arith (hport p hp c hc)
        have hne : c.toNat ≠ 64 := by omega
        exact beq_char_false (show c.toNat ≠ Char.toNat '@' from hne)

theorem parseAuthority_parts (r : URLRec) (h : String)
    (hu : ∀ c ∈ r.username.data, userinfoSet c = false)
    (hpw : ∀ c ∈ r.password.data, userinfoSet c = false)
    (hch : ∀ c ∈ h.data, forbiddenHostChar c = false)
    (hlow : isSpecialScheme r.scheme = true → h.data.map Char.toLower = h.data)
    (hport : ∀ p, r.port = some p → p ≠ "" ∧ (∀ c ∈ p.data, asciiDigit c = true) ∧
      decimalVal p.data < 65536 ∧
      ∀ d, defaultPortNum r.scheme = some d → decimalVal p.data ≠ d) :
    parseAuthority r.scheme (userinfoPart r ++ (h.data ++ portPart r)) =
      some (r.username, r.password, h, r.port) := by
  have hAt := userinfo_no_at h hch (fun p hp => (hport p hp).2.1)
  have hunc : ∀ c ∈ r.username.data, (c == ':') = false := fun c hc =>
    beq_char_false (show c.toNat ≠ Char.toNat ':' from
      (userinfoSet_false_arith (hu c hc)).2.2.2.2.2.2.2.2.2.2.2.1)
  by_cases hui : r.username = "" ∧ r.password = ""
  · rw [userinfoPart, if_pos hui, List.nil_append, parseAuthority,
      splitLast_eq_none_iff.mpr hAt]
    dsimp only
    rw [show portPart r = portTail r.port from rfl,
      parseHostPort_parts r.scheme h r.port hch hlow hport]
    simp only [Option.map_some']
    rw [hui.1, hui.2]
  · rw [userinfoPart, if_neg hui]
    by_cases hpwe : r.password = ""
    · rw [if_pos hpwe, List.append_nil]
      have hsh : (r.username.data ++ ['@']) ++ (h.data ++ portPart r) =
          r.username.data ++ '@' :: (h.data ++ portPart r) := by
        simp [List.append_assoc]
      rw [parseAuthority, hsh, splitLast_append r.username.data hAt (by decide)]
      dsimp only
      rw [splitFirst_eq_none hunc]
      dsimp only
      rw [show portPart r = portTail r.port from rfl,
        parseHostPort_parts r.scheme h r.port hch hlow hport]
      simp only [Option.map_some']
      rw [pctEncodeL_id hu, show pctEncodeL userinfoSet [] = [] from rfl, hpwe]
    · rw [if_neg hpwe]
      have hsh : (r.username.data ++ ':' :: r.password.data ++ ['@']) ++
          (h.data ++ portPart r) =
          (r.username.data ++ ':' :: r.password.data) ++ '@' :: (h.data ++ portPart r) := by
        simp [List.append_assoc]
      rw [parseAuthority, hsh,
        splitLast_append (r.username.data ++ ':' :: r.password.data) hAt (by decide)]
      dsimp only
      rw [splitFirst_append r.password.data hunc (by decide)]
      dsimp only
      rw [show portPart r = portTail r.port from rfl,
        parseHostPort_parts r.scheme h r.port hch hlow hport]
      simp only [Option.map_some']
      rw [pctEncodeL_id hu, pctEncodeL_id hpw]

theorem userinfoPart_chars {r : URLRec}
    (hu : ∀ c ∈ r.username.data, userinfoSet c = false)
    (hpw : ∀ c ∈ r.password.data, userinfoSet c = false) :
    ∀ c ∈ userinfoPart r, userinfoSet c = false ∨ c.toNat = 58 ∨ c.toNat = 64 := by
  intro c hc
  rw [userinfoPart] at hc
  by_cases hui : r.username = "" ∧ r.password = ""
  · rw [if_pos hui] at hc; cases hc
  · rw [if_neg hui] at hc
    rcases List.mem_append.mp hc with hc | hc
    · rcases List.mem_append.mp hc with hc | hc
      · exact Or.inl (hu c hc)
      · by_cases hpe : r.password = ""
        · rw [if_pos hpe] at hc; cases hc
        · rw [if_neg hpe] at hc
          rcases List.mem_cons.mp hc with rfl | hc
          · right; left; rfl
          · exact Or.inl (hpw c hc)
    · rcases List.mem_cons.mp hc with rfl | hc
      · right; right; rfl
      · cases hc

theorem portPart_chars {r : URLRec}
    (hport : ∀ p, r.port = some p → ∀ c ∈ p.data, asciiDigit c = true) :
    ∀ c ∈ portPart r, c.toNat = 58 ∨ (48 ≤ c.toNat ∧ c.toNat ≤ 57) := by
  intro c hc
  rw [portPart] at hc
  cases hp : r.port with
  | none => rw [hp] at hc; cases hc
  | some p =>
    rw [hp] at hc
    simp only [portTail] at hc
    rcases List.mem_cons.mp hc with rfl | hc
    · left; rfl
    · exact Or.inr (asciiDigit_arith (hport p hp c hc))

theorem authority_no_delim {r : URLRec} {h : String}
    (hu : ∀ c ∈ r.username.data, userinfoSet c = false)
    (hpw : ∀ c ∈ r.password.data, userinfoSet c = false)
    (hch : ∀ c ∈ h.data, forbiddenHostChar c = false)
    (hport : ∀ p, r.port = some p → ∀ c ∈ p.data, asciiDigit c = true) :
    ∀ c ∈ userinfoPart r ++ (h.data ++ portPart r),
      (c == '/' || c == '?' || c == '#') = false := by
  intro c hc
  rcases List.mem_append.mp hc with hc | hc
  · rcases userinfoPart_chars hu hpw c hc with hs | hn | hn
    · have := userinfoSet_false_arith hs
      exact delim3_false (by omega) (by omega) (by omega)
    · exact delim3_false (by omega) (by omega) (by omega)
    · exact delim3_false (by omega) (by omega) (by omega)
  · rcases List.mem_append.mp hc with hc | hc
    · have := forbidden_false_arith (hch c hc)
      exact delim3_false (by omega) (by omega) (by omega)
    · rcases portPart_chars hport c hc with hn | hn
      · exact delim3_false (by omega) (by omega) (by omega)
      · exact delim3_false (by omega) (by omega) (by omega)

theorem dropWhile_append_of_ne {p : Char → Bool} {a z : List Char} (hne : a ≠ [])
    (ha : ∀ c ∈ a, p c = false) : List.dropWhile p (a ++ z) = a ++ z := by
  cases a with
  | nil => exact absurd rfl hne
  | cons x t =>
    rw [List.cons_append, List.dropWhile_cons, if_neg (by simp [ha x (by simp)])]

theorem zShape (se fr : String) :
    ((if se = "" then ([] : List Char) else '?' :: se.data) ++
      (if fr = "" then ([] : List Char) else '#' :: fr.data)) = [] ∨
    ∃ x t, ((if se = "" then ([] : List Char) else '?' :: se.data) ++
      (if fr = "" then ([] : List Char) else '#' :: fr.data)) = x :: t ∧
      (x == '?' || x == '#') = true := by
  by_cases hse : se = ""
  · by_cases hfe : fr = ""
    · left; rw [if_pos hse, if_pos hfe]; rfl
    · right
      rw [if_pos hse, if_neg hfe, List.nil_append]
      exact ⟨'#', fr.data, rfl, by decide⟩
  · right
    refine ⟨'?', se.data ++ (if fr = "" then ([] : List Char) else '#' :: fr.data),
      ?_, by decide⟩
    rw [if_neg hse, List.cons_append]

theorem zShape3 (pa se fr : String) (hpa : pa = "" ∨ pa.data.head? = some '/') :
    (pa.data ++ ((if se = "" then ([] : List Char) else '?' :: se.data) ++
      (if fr = "" then ([] : List Char) else '#' :: fr.data))) = [] ∨
    ∃ x t, (pa.data ++ ((if se = "" then ([] : List Char) else '?' :: se.data) ++
      (if fr = "" then ([] : List Char) else '#' :: fr.data))) = x :: t ∧
      (x == '/' || x == '?' || x == '#') = true := by
  rcases hpa with hpa | hpa
  · have : pa.data = [] := by rw [hpa]
    rw [this, List.nil_append]
    rcases zShape se fr with hz | ⟨x, t, hz, hx⟩
    · left; exact hz
    · right
      refine ⟨x, t, hz, ?_⟩
      simp only [Bool.or_eq_true] at hx ⊢
      rcases hx with hx | hx
      · exact Or.inl (Or.inr hx)
      · exact Or.inr hx
  · cases hd : pa.data with
    | nil => rw [hd] at hpa; cases hpa
    | cons x t =>
      rw [hd] at hpa
      simp only [List.head?_cons, Option.some_inj] at hpa
      subst hpa
      right
      exact ⟨'/', t ++ ((if se = "" then ([] : List Char) else '?' :: se.data) ++
        (if fr = "" then ([] : List Char) else '#' :: fr.data)), rfl, by decide⟩

theorem head_ne_slash_take {l : List Char} (h : l.head? ≠ some '/') :
    l.take 2 ≠ ['/', '/'] ∧ l.take 1 ≠ ['/'] := by
  cases l with
  | nil => exact ⟨by simp, by simp⟩
  | cons x t =>
    have hx : x ≠ '/' := by
      intro hx; subst hx; exact h rfl
    constructor
    · intro he
      rw [List.take_succ_cons] at he
      exact hx (List.cons.inj he).1
    · intro he
      rw [List.take_succ_cons] at he
      exact hx (List.cons.inj he).1

theorem some_mk_eq {r : URLRec} {sch u pw : String} {host : Option String}
    {port : Option String} {pa se fr : String}
    (h1 : r.scheme = sch) (h2 : r.username = u) (h3 : r.password = pw)
    (h4 : r.host = host) (h5 : r.port = port) (h6 : r.path = pa)
    (h7 : r.search = se) (h8 : r.fragment = fr) :
    (some { scheme := sch, username := u, password := pw, host := host, port := port,
            path := pa, search := se, fragment := fr } : Option URLRec) = some r := by
  subst h1; subst h2; subst h3; subst h4; subst h5; subst h6; subst h7; subst h8
  rfl

theorem take2_append {pa z : List Char} (h2 : pa.take 2 ≠ ['/', '/'])
    (hz : z.head? ≠ some '/') : (pa ++ z).take 2 ≠ ['/', '/'] := by
  cases pa with
  | nil =>
    rw [List.nil_append]
    intro he
    cases z with
    | nil => cases he
    | cons x t =>
      rw [List.take_succ_cons] at he
      exact hz (by rw [(List.cons.inj he).1]; rfl)
  | cons a t =>
    cases t with
    | nil =>
      rw [List.cons_append, List.nil_append]
      intro he
      rw [List.take_succ_cons] at he
      obtain ⟨ha, hz1⟩ := List.cons.inj he
      cases z with
      | nil => cases hz1
      | cons x t2 =>
        rw [List.take_succ_cons] at hz1
        exact hz (by rw [(List.cons.inj hz1).1]; rfl)
    | cons b t2 =>
      intro he
      apply h2
      rw [List.cons_append, List.cons_append, List.take_succ_cons, List.take_succ_cons] at he
      obtain ⟨ha, hrest⟩ := List.cons.inj he
      obtain ⟨hb, _⟩ := List.cons.inj hrest
      rw [List.take_succ_cons, List.take_succ_cons, List.take_zero, ha, hb]

/-- A well-formed URL record reparses from its serialization to itself.  This is
the key fact behind every claim that inspects `cleanedUrl`: the cleaned URL the
code produces denotes exactly the URL object it serialized. -/
theorem serialize_parse {r : URLRec} (w : WF r) : parseUrl r.serialize = some r := by
  have hschc : ∀ c ∈ r.scheme.data, (c == ':') = false := by
    intro c hc
    have := schemeChar_toNat (schemeOk_chars w.scheme_ok c hc)
    have hn : c.toNat ≠ 58 := by omega
    exact beq_char_false (show c.toNat ≠ Char.toNat ':' from hn)
  have hportd : ∀ p, r.port = some p → ∀ c ∈ p.data, asciiDigit c = true :=
    fun p hp => ((w.port_ok p hp).2.1)
  rw [URLRec.serialize, parseUrl]
  dsimp only
  rw [splitFirst_append _ hschc (by decide)]
  dsimp only
  rw [if_pos w.scheme_ok, w.scheme_lower,
    show (⟨r.scheme.data⟩ : String) = r.scheme from rfl, searchPart, fragmentPart]
  cases hhost : r.host with
  | some h =>
    have hch := w.host_chars h hhost
    have hAnd : ∀ c ∈ userinfoPart r ++ (h.data ++ portPart r),
        (c == '/' || c == '?' || c == '#') = false :=
      authority_no_delim w.username_ok w.password_ok hch hportd
    have hANoSlash : ∀ c ∈ userinfoPart r ++ (h.data ++ portPart r),
        (c == '/') = false := by
      intro c hc
      have hcc := hAnd c hc
      simp only [Bool.or_eq_false_iff] at hcc
      exact hcc.1.1
    by_cases hsp : isSpecialScheme r.scheme = true
    · obtain ⟨h2, hh2, hne, hlow, hph⟩ := w.host_special hsp
      rw [hhost] at hh2
      injection hh2 with hh2
      subst hh2
      obtain ⟨pt, hpd⟩ : ∃ t, r.path.data = '/' :: t := by
        cases hd : r.path.data with
        | nil => rw [hd] at hph; cases hph
        | cons x t =>
          rw [hd] at hph
          simp only [List.head?_cons, Option.some_inj] at hph
          exact ⟨t, by rw [hph]⟩
      obtain ⟨hx, ht, hhd⟩ := str_ne_empty_data hne
      rw [parseUrlAux, if_pos hsp, hostPart, hhost]
      dsimp only
      rw [show ('/' :: '/' :: (userinfoPart r ++ h.data ++ portPart r)) ++ r.path.data ++
          (if r.search = "" then ([] : List Char) else '?' :: r.search.data) ++
          (if r.fragment = "" then ([] : List Char) else '#' :: r.fragment.data) =
          '/' :: '/' :: ((userinfoPart r ++ (h.data ++ portPart r)) ++
            (r.path.data ++ ((if r.search = "" then ([] : List Char) else '?' :: r.search.data) ++
              (if r.fragment = "" then ([] : List Char) else '#' :: r.fragment.data)))) from by
        simp [List.append_assoc]]
      rw [List.dropWhile_cons, if_pos (by decide), List.dropWhile_cons, if_pos (by decide)]
      rw [dropWhile_append_of_ne (by simp [hhd]) hANoSlash]
      rw [takeUntil_append_general hAnd
        (zShape3 r.path r.search r.fragment (Or.inr hph))]
      dsimp only
      rw [parseAuthority_parts r h w.username_ok w.password_ok hch (fun _ => hlow) w.port_ok]
      dsimp only
      rw [if_neg hne]
      rw [parsePathQF_parts r.path r.search r.fragment
        (w.path_ok (Or.inl (by rw [hhost]; simp))) w.search_ok w.fragment_ok]
      dsimp only
      rw [if_neg (show ¬(r.path = "") from fun he => by rw [he] at hpd; cases hpd)]
      exact some_mk_eq rfl rfl rfl hhost rfl rfl rfl rfl
    · rw [parseUrlAux, if_neg hsp, hostPart, hhost]
      dsimp only
      rw [show ('/' :: '/' :: (userinfoPart r ++ h.data ++ portPart r)) ++ r.path.data ++
          (if r.search = "" then ([] : List Char) else '?' :: r.search.data) ++
          (if r.fragment = "" then ([] : List Char) else '#' :: r.fragment.data) =
          '/' :: '/' :: ((userinfoPart r ++ (h.data ++ portPart r)) ++
            (r.path.data ++ ((if r.search = "" then ([] : List Char) else '?' :: r.search.data) ++
              (if r.fragment = "" then ([] : List Char) else '#' :: r.fragment.data)))) from by
        simp [List.append_assoc]]
      rw [if_pos (by simp)]
      rw [show ('/' :: '/' :: ((userinfoPart r ++ (h.data ++ portPart r)) ++
          (r.path.data ++ ((if r.search = "" then ([] : List Char) else '?' :: r.search.data) ++
            (if r.fragment = "" then ([] : List Char) else '#' :: r.fragment.data))))).drop 2 =
          (userinfoPart r ++ (h.data ++ portPart r)) ++
          (r.path.data ++ ((if r.search = "" then ([] : List Char) else '?' :: r.search.data) ++
            (if r.fragment = "" then ([] : List Char) else '#' :: r.fragment.data))) from rfl]
      rw [takeUntil_append_general hAnd
        (zShape3 r.path r.search r.fragment (w.host_path h hhost))]
      dsimp only
      rw [parseAuthority_parts r h w.username_ok w.password_ok hch
        (fun hs => absurd hs hsp) w.port_ok]
      dsimp only
      rw [parsePathQF_parts r.path r.search r.fragment
        (w.path_ok (Or.inl (by rw [hhost]; simp))) w.search_ok w.fragment_ok]
      dsimp only
      exact some_mk_eq rfl rfl rfl hhost rfl rfl rfl rfl
  | none =>
    obtain ⟨hu0, hpw0, hport0⟩ := w.host_none_ui hhost
    have hsp := w.host_none_special hhost
    rw [parseUrlAux, if_neg (by rw [hsp]; simp), hostPart, hhost]
    dsimp only
    rw [show ([] : List Char) ++ r.path.data ++
        (if r.search = "" then ([] : List Char) else '?' :: r.search.data) ++
        (if r.fragment = "" then ([] : List Char) else '#' :: r.fragment.data) =
        r.path.data ++ ((if r.search = "" then ([] : List Char) else '?' :: r.search.data) ++
          (if r.fragment = "" then ([] : List Char) else '#' :: r.fragment.data)) from by
      simp [List.append_assoc]]
    by_cases hph : r.path.data.head? = some '/'
    · obtain ⟨pt, hpd⟩ : ∃ t, r.path.data = '/' :: t := by
        cases hd : r.path.data with
        | nil => rw [hd] at hph; cases hph
        | cons x t =>
          rw [hd] at hph
          simp only [List.head?_cons, Option.some_inj] at hph
          exact ⟨t, by rw [hph]⟩
      have hzhead : ((if r.search = "" then ([] : List Char) else '?' :: r.search.data) ++
          (if r.fragment = "" then ([] : List Char) else '#' :: r.fragment.data)).head? ≠
          some '/' := by
        rcases zShape r.search r.fragment with hz | ⟨x, t, hz, hxx⟩
        · rw [hz]; simp
        · rw [hz]
          simp only [List.head?_cons]
          intro he
          injection he with he
          subst he
          cases hxx
      rw [if_neg (take2_append (w.host_none_slashes hhost) hzhead)]
      rw [if_pos (by rw [hpd]; rfl)]
      rw [parsePathQF_parts r.path r.search r.fragment
        (w.path_ok (Or.inr hph)) w.search_ok w.fragment_ok]
      dsimp only
      exact some_mk_eq rfl hu0 hpw0 hhost hport0 rfl rfl rfl
    · have hop := w.path_opq hhost hph
      have hresthead : (r.path.data ++
          ((if r.search = "" then ([] : List Char) else '?' :: r.search.data) ++
            (if r.fragment = "" then ([] : List Char) else '#' :: r.fragment.data))).head? ≠
          some '/' := by
        cases hd : r.path.data with
        | nil =>
          rw [List.nil_append]
          rcases zShape r.search r.fragment with hz | ⟨x, t, hz, hxx⟩
          · rw [hz]; simp
          · rw [hz]
            simp only [List.head?_cons]
            intro he
            injection he with he
            subst he
            cases hxx
        | cons x t =>
          rw [List.cons_append]
          simp only [List.head?_cons]
          intro he
          injection he with he
          subst he
          rw [hd] at hph
          exact hph rfl
      obtain ⟨ht2, ht1⟩ := head_ne_slash_take hresthead
      rw [if_neg ht2, if_neg ht1]
      rw [takeUntil_append_general (fun c hc => delim2_false
        (fun hn => (hop c hc).2.1 (char_toNat_inj (show c.toNat = Char.toNat '?' from hn)))
        (fun hn => (hop c hc).2.2 (char_toNat_inj (show c.toNat = Char.toNat '#' from hn))))
        (zShape r.search r.fragment)]
      dsimp only
      rw [pctEncodeL_id (fun c hc => (hop c hc).1),
        parseQF_parts r.search r.fragment w.search_ok w.fragment_ok]
      dsimp only
      exact some_mk_eq rfl hu0 hpw0 hhost hport0 rfl rfl rfl

/-! ## The parser only produces well-formed records -/

theorem schemeOk_toLower {l : List Char} (h : schemeOk l = true) :
    schemeOk (l.map Char.toLower) = true := by
  cases l with
  | nil => cases h
  | cons x t =>
    rw [schemeOk, Bool.and_eq_true] at h
    rw [List.map_cons, schemeOk, Bool.and_eq_true]
    constructor
    · have := h.1
      simp only [asciiAlpha, decide_eq_true_eq] at this ⊢
      rw [toLower_toNat]
      by_cases hr : 65 ≤ x.toNat ∧ x.toNat ≤ 90
      · rw [if_pos hr]; omega
      · rw [if_neg hr]; omega
    · rw [List.all_eq_true]
      intro c hc
      simp only [List.mem_map] at hc
      obtain ⟨d, hd, rfl⟩ := hc
      have := List.all_eq_true.mp h.2 d hd
      simp only [schemeCharOk, asciiAlpha, asciiDigit, Bool.or_eq_true,
        decide_eq_true_eq] at this ⊢
      rw [toLower_toNat]
      by_cases hr : 65 ≤ d.toNat ∧ d.toNat ≤ 90
      · rw [if_pos hr]; omega
      · rw [if_neg hr]; omega

theorem forbidden_toLower {c : Char} (h : forbiddenHostChar c = false) :
    forbiddenHostChar (Char.toLower c) = false := by
  have ha := forbidden_false_arith h
  simp only [forbiddenHostChar, decide_eq_false_iff_not]
  rw [toLower_toNat]
  by_cases hr : 65 ≤ c.toNat ∧ c.toNat ≤ 90
  · rw [if_pos hr]; omega
  · rw [if_neg hr]; omega

theorem pctEncodeL_mem {S : Char → Bool} {l : List Char} {c : Char}
    (hb : ∀ x, S x = true → x.toNat < 256)
    (hc : c ∈ pctEncodeL S l) :
    (c ∈ l ∧ S c = false) ∨ c = '%' ∨ ∃ n, n < 16 ∧ c = hexDigitChar n := by
  induction l with
  | nil => cases hc
  | cons x t ih =>
    rw [pctEncodeL_cons] at hc
    rcases List.mem_append.mp hc with hc | hc
    · by_cases hx : S x = true
      · have hlt := hb x hx
        rw [pctEncodeChar, if_pos hx] at hc
        simp only [List.mem_cons, List.not_mem_nil, or_false] at hc
        rcases hc with rfl | rfl | rfl
        · right; left; rfl
        · right; right; exact ⟨_, by omega, rfl⟩
        · right; right; exact ⟨_, by omega, rfl⟩
      · simp only [Bool.not_eq_true] at hx
        rw [pctEncodeChar_not hx] at hc
        simp only [List.mem_singleton] at hc
        subst hc
        exact Or.inl ⟨by simp, hx⟩
    · rcases ih hc with ⟨h1, h2⟩ | h
      · exact Or.inl ⟨by simp [h1], h2⟩
      · exact Or.inr h

theorem pctEncodeL_head_slash {S : Char → Bool} {l : List Char}
    (h : (pctEncodeL S l).head? = some '/') : l.head? = some '/' := by
  cases l with
  | nil => cases h
  | cons x t =>
    rw [pctEncodeL_cons] at h
    by_cases hx : S x = true
    · rw [pctEncodeChar, if_pos hx] at h
      simp only [List.cons_append, List.head?_cons] at h
      injection h with h
      cases h
    · simp only [Bool.not_eq_true] at hx
      rw [pctEncodeChar_not hx] at h
      simp only [List.cons_append, List.head?_cons] at h
      injection h with h
      rw [h]
      rfl

theorem takeUntil_fst_head {p : Char → Bool} {l : List Char} {y : Char}
    (h : (takeUntil p l).1.head? = some y) : l.head? = some y := by
  have := takeUntil_append_eq (p := p) l
  cases hf : (takeUntil p l).1 with
  | nil => rw [hf] at h; cases h
  | cons a t =>
    rw [hf] at h this
    rw [← this]
    simpa using h

theorem parseQF_wf {t : List Char} {se fr : String} (h : parseQF t = (se, fr)) :
    (∀ c ∈ se.data, querySet c = false) ∧ (∀ c ∈ fr.data, fragmentSet c = false) := by
  cases t with
  | nil =>
    rw [parseQF_nil] at h
    injection h with h1 h2
    subst h1; subst h2
    exact ⟨by simp, by simp⟩
  | cons c t2 =>
    by_cases hq : c = '?'
    · subst hq
      rw [parseQF_quest] at h
      injection h with h1 h2
      subst h1
      refine ⟨fun c hc => pct_query_chars c hc, ?_⟩
      cases hr : (takeUntil (fun c => c == '#') t2).2 with
      | nil =>
        rw [hr] at h2
        subst h2
        simp
      | cons y f =>
        rw [hr] at h2
        subst h2
        exact fun c hc => pct_fragment_chars c hc
    · by_cases hh : c = '#'
      · subst hh
        rw [parseQF.eq_def] at h
        simp only [if_neg (by decide : ¬(('#' : Char) = '?')), if_pos rfl] at h
        injection h with h1 h2
        subst h1; subst h2
        exact ⟨by simp, fun c hc => pct_fragment_chars c hc⟩
      · rw [parseQF.eq_def] at h
        simp only [if_neg hq, if_neg hh] at h
        injection h with h1 h2
        subst h1; subst h2
        exact ⟨by simp, by simp⟩

theorem parseHostPort_wf {scheme : String} {hp : List Char} {host : String}
    {port : Option String} (h : parseHostPort scheme hp = some (host, port)) :
    (∀ c ∈ host.data, forbiddenHostChar c = false) ∧
    (isSpecialScheme scheme = true → host.data.map Char.toLower = host.data) ∧
    (∀ p, port = some p → p ≠ "" ∧ (∀ c ∈ p.data, asciiDigit c = true) ∧
      decimalVal p.data < 65536 ∧
      ∀ d, defaultPortNum scheme = some d → decimalVal p.data ≠ d) := by
  have hostChars : ∀ (X : List Char), X.all (fun c => !forbiddenHostChar c) = true →
      ∀ c ∈ (if isSpecialScheme scheme = true then X.map Char.toLower else X),
        forbiddenHostChar c = false := by
    intro X hall c hc
    have hX : ∀ c ∈ X, forbiddenHostChar c = false := fun d hd => by
      have := List.all_eq_true.mp hall d hd
      simpa using this
    by_cases hsp : isSpecialScheme scheme = true
    · rw [if_pos hsp] at hc
      simp only [List.mem_map] at hc
      obtain ⟨d, hd, rfl⟩ := hc
      exact forbidden_toLower (hX d hd)
    · rw [if_neg hsp] at hc
      exact hX c hc
  have hostLower : ∀ (X : List Char), isSpecialScheme scheme = true →
      (if isSpecialScheme scheme = true then X.map Char.toLower else X).map Char.toLower =
      (if isSpecialScheme scheme = true then X.map Char.toLower else X) := by
    intro X hsp
    rw [if_pos hsp, map_toLower_idem]
  rw [parseHostPort] at h
  cases hsf : splitFirst (fun c => c == ':') hp with
  | none =>
    rw [hsf] at h
    by_cases hall : hp.all (fun c => !forbiddenHostChar c) = true
    · rw [if_pos hall] at h
      injection h with h
      injection h with h1 h2
      subst h1
      subst h2
      refine ⟨hostChars hp hall, hostLower hp, ?_⟩
      intro p hps
      cases hps
    · rw [if_neg hall] at h
      cases h
  | some r0 =>
    rw [hsf] at h
    dsimp only at h
    by_cases hall : r0.1.all (fun c => !forbiddenHostChar c) = true
    · rw [if_pos hall] at h
      by_cases hemp : r0.2.isEmpty = true
      · rw [if_pos hemp] at h
        injection h with h
        injection h with h1 h2
        subst h1
        subst h2
        refine ⟨hostChars r0.1 hall, hostLower r0.1, ?_⟩
        intro p hps
        cases hps
      · rw [if_neg hemp] at h
        by_cases hdig : (r0.2.all asciiDigit && decide (decimalVal r0.2 < 65536)) = true
        · rw [if_pos hdig] at h
          simp only [Bool.and_eq_true, decide_eq_true_eq] at hdig
          cases hdp : defaultPortNum scheme with
          | some d =>
            rw [hdp] at h
            dsimp only at h
            by_cases heq : (decimalVal r0.2 == d) = true
            · rw [if_pos heq] at h
              injection h with h
              injection h with h1 h2
              subst h1
              subst h2
              refine ⟨hostChars r0.1 hall, hostLower r0.1, ?_⟩
              intro p hps
              cases hps
            · rw [if_neg heq] at h
              injection h with h
              injection h with h1 h2
              subst h1
              subst h2
              refine ⟨hostChars r0.1 hall, hostLower r0.1, ?_⟩
              intro p hps
              injection hps with hps
              subst hps
              refine ⟨?_, ?_, hdig.2, ?_⟩
              · rw [ne_eq, mk_eq_empty_iff]
                intro he
                rw [he] at hemp
                exact hemp rfl
              · exact fun c hc => List.all_eq_true.mp hdig.1 c hc
              · intro d2 hd2
                injection hd2 with hd2
                subst hd2
                intro he
                exact heq (by simp [he])
          | none =>
            rw [hdp] at h
            dsimp only at h
            injection h with h
            injection h with h1 h2
            subst h1
            subst h2
            refine ⟨hostChars r0.1 hall, hostLower r0.1, ?_⟩
            intro p hps
            injection hps with hps
            subst hps
            refine ⟨?_, ?_, hdig.2, ?_⟩
            · rw [ne_eq, mk_eq_empty_iff]
              intro he
              rw [he] at hemp
              exact hemp rfl
            · exact fun c hc => List.all_eq_true.mp hdig.1 c hc
            · intro d2 hd2
              cases hd2
        · rw [if_neg hdig] at h
          cases h
    · rw [if_neg hall] at h
      cases h

theorem parseAuthority_wf {scheme : String} {auth : List Char} {u pw host : String}
    {port : Option String} (h : parseAuthority scheme auth = some (u, pw, host, port)) :
    (∀ c ∈ u.data, userinfoSet c = false) ∧ (∀ c ∈ pw.data, userinfoSet c = false) ∧
    (∀ c ∈ host.data, forbiddenHostChar c = false) ∧
    (isSpecialScheme scheme = true → host.data.map Char.toLower = host.data) ∧
    (∀ p, port = some p → p ≠ "" ∧ (∀ c ∈ p.data, asciiDigit c = true) ∧
      decimalVal p.data < 65536 ∧
      ∀ d, defaultPortNum scheme = some d → decimalVal p.data ≠ d) := by
  rw [parseAuthority] at h
  cases hsl : splitLast (fun c => c == '@') auth with
  | some r0 =>
    rw [hsl] at h
    dsimp only at h
    cases hhp : parseHostPort scheme r0.2 with
    | none =>
      rw [hhp] at h
      cases h
    | some hp2 =>
      rw [hhp] at h
      simp only [Option.map_some'] at h
      injection h with h
      injection h with h1 h
      injection h with h2 h
      injection h with h3 h4
      subst h1
      subst h2
      subst h3
      subst h4
      obtain ⟨hc1, hc2, hc3⟩ :=
        parseHostPort_wf (show parseHostPort scheme r0.2 = some (hp2.1, hp2.2) from by
          rw [hhp])
      exact ⟨fun c hc => pct_userinfo_chars c hc, fun c hc => pct_userinfo_chars c hc,
        hc1, hc2, hc3⟩
  | none =>
    rw [hsl] at h
    cases hhp : parseHostPort scheme auth with
    | none =>
      rw [hhp] at h
      cases h
    | some hp2 =>
      rw [hhp] at h
      simp only [Option.map_some'] at h
      injection h with h
      injection h with h1 h
      injection h with h2 h
      injection h with h3 h4
      subst h1
      subst h2
      subst h3
      subst h4
      obtain ⟨hc1, hc2, hc3⟩ :=
        parseHostPort_wf (show parseHostPort scheme auth = some (hp2.1, hp2.2) from by
          rw [hhp])
      exact ⟨by simp, by simp, hc1, hc2, hc3⟩

theorem parsePathQF_chars (rem : List Char) :
    (∀ c ∈ (parsePathQF rem).1.data, pathSet c = false) ∧
    (∀ c ∈ (parsePathQF rem).2.1.data, querySet c = false) ∧
    (∀ c ∈ (parsePathQF rem).2.2.data, fragmentSet c = false) := by
  rw [parsePathQF]
  dsimp only
  exact ⟨fun c hc => pct_path_chars c hc, (parseQF_wf rfl).1, (parseQF_wf rfl).2⟩

theorem parsePathQF_shape {rem : List Char}
    (hrem : rem = [] ∨ ∃ x t, rem = x :: t ∧ (x == '/' || x == '?' || x == '#') = true) :
    (parsePathQF rem).1 = "" ∨ (parsePathQF rem).1.data.head? = some '/' := by
  rcases hrem with rfl | ⟨x, t, rfl, hx⟩
  · left; rfl
  · simp only [Bool.or_eq_true, beq_iff_eq] at hx
    rcases hx with (rfl | rfl) | rfl
    · right
      rw [parsePathQF]
      dsimp only
      rw [takeUntil, if_neg (by decide)]
      dsimp only
      rw [pctEncodeL_cons, pctEncodeChar_not (by decide)]
      rfl
    · left
      rw [parsePathQF]
      dsimp only
      rw [takeUntil, if_pos (by decide)]
      rfl
    · left
      rw [parsePathQF]
      dsimp only
      rw [takeUntil, if_pos (by decide)]
      rfl

theorem take2_head {l : List Char} (h : l.take 2 = ['/', '/']) : l.head? = some '/' := by
  cases l with
  | nil => cases h
  | cons x t =>
    rw [List.take_succ_cons] at h
    rw [(List.cons.inj h).1]
    rfl

theorem parsePathQF_slash {t : List Char}
    (h2 : ('/' :: t).take 2 ≠ ['/', '/']) :
    (parsePathQF ('/' :: t)).1.data.head? = some '/' ∧
    (parsePathQF ('/' :: t)).1.data.take 2 ≠ ['/', '/'] := by
  rw [parsePathQF]
  dsimp only
  rw [takeUntil, if_neg (by decide)]
  dsimp only
  rw [pctEncodeL_cons, pctEncodeChar_not (by decide)]
  refine ⟨rfl, ?_⟩
  intro he
  have he2 : ('/' :: pctEncodeL pathSet
      (takeUntil (fun c => c == '?' || c == '#') t).1).take 2 = ['/', '/'] := he
  rw [List.take_succ_cons] at he2
  have h1 := (List.cons.inj he2).2
  have hh : (pctEncodeL pathSet (takeUntil (fun c => c == '?' || c == '#') t).1).head? =
      some '/' := by
    cases hc : pctEncodeL pathSet (takeUntil (fun c => c == '?' || c == '#') t).1 with
    | nil => rw [hc] at h1; cases h1
    | cons y f =>
      rw [hc] at h1
      rw [List.take_succ_cons] at h1
      rw [(List.cons.inj h1).1]
      rfl
  have := takeUntil_fst_head (pctEncodeL_head_slash hh)
  apply h2
  cases ht : t with
  | nil => rw [ht] at this; cases this
  | cons b t2 =>
    rw [ht] at this
    simp only [List.head?_cons] at this
    injection this with this
    rw [this]
    rfl

theorem parseUrlAux_wf {scheme : String} {rest : List Char} {r : URLRec}
    (hok : schemeOk scheme.data = true)
    (hlow : scheme.data.map Char.toLower = scheme.data)
    (h : parseUrlAux scheme rest = some r) : WF r := by
  rw [parseUrlAux] at h
  by_cases hsp : isSpecialScheme scheme = true
  · rw [if_pos hsp] at h
    dsimp only at h
    cases hpa : parseAuthority scheme
        (takeUntil (fun c => c == '/' || c == '?' || c == '#')
          (List.dropWhile (fun c => c == '/') rest)).1 with
    | none => rw [hpa] at h; cases h
    | some q =>
      obtain ⟨u, pw, host, port⟩ := q
      rw [hpa] at h
      dsimp only at h
      by_cases hhe : host = ""
      · rw [if_pos hhe] at h; cases h
      · rw [if_neg hhe] at h
        injection h with h
        subst h
        obtain ⟨hu, hpw, hhost, hlowh, hport⟩ := parseAuthority_wf hpa
        have hch := parsePathQF_chars
            (takeUntil (fun c => c == '/' || c == '?' || c == '#')
              (List.dropWhile (fun c => c == '/') rest)).2
        have hsh := parsePathQF_shape
            (takeUntil_snd_cases (List.dropWhile (fun c => c == '/') rest))
        have hhead : (if (parsePathQF
            (takeUntil (fun c => c == '/' || c == '?' || c == '#')
              (List.dropWhile (fun c => c == '/') rest)).2).1 = "" then "/"
            else (parsePathQF
            (takeUntil (fun c => c == '/' || c == '?' || c == '#')
              (List.dropWhile (fun c => c == '/') rest)).2).1).data.head? = some '/' := by
          by_cases hpe : (parsePathQF
              (takeUntil (fun c => c == '/' || c == '?' || c == '#')
                (List.dropWhile (fun c => c == '/') rest)).2).1 = ""
          · rw [if_pos hpe]; rfl
          · rw [if_neg hpe]
            rcases hsh with hsh | hsh
            · exact absurd hsh hpe
            · exact hsh
        exact {
          scheme_ok := hok
          scheme_lower := hlow
          username_ok := hu
          password_ok := hpw
          host_none_ui := fun hn => Option.noConfusion hn
          host_chars := by
            intro h2 hh2 c hc
            injection hh2 with hh2
            subst hh2
            exact hhost c hc
          host_special := fun _ => ⟨host, rfl, hhe, hlowh hsp, hhead⟩
          host_path := fun _ _ => Or.inr hhead
          host_none_special := fun hn => Option.noConfusion hn
          host_none_slashes := fun hn => Option.noConfusion hn
          path_ok := by
            intro _ c hc
            dsimp only at hc
            by_cases hpe : (parsePathQF
                (takeUntil (fun c => c == '/' || c == '?' || c == '#')
                  (List.dropWhile (fun c => c == '/') rest)).2).1 = ""
            · rw [if_pos hpe] at hc
              have hd : ("/" : String).data = ['/'] := rfl
              rw [hd] at hc
              simp only [List.mem_cons, List.not_mem_nil, or_false] at hc
              subst hc
              decide
            · rw [if_neg hpe] at hc
              exact hch.1 c hc
          path_opq := fun hn => Option.noConfusion hn
          port_ok := hport
          search_ok := hch.2.1
          fragment_ok := hch.2.2 }
  · rw [if_neg hsp] at h
    by_cases h2 : rest.take 2 = ['/', '/']
    · rw [if_pos h2] at h
      dsimp only at h
      cases hpa : parseAuthority scheme
          (takeUntil (fun c => c == '/' || c == '?' || c == '#') (rest.drop 2)).1 with
      | none => rw [hpa] at h; cases h
      | some q =>
        obtain ⟨u, pw, host, port⟩ := q
        rw [hpa] at h
        dsimp only at h
        injection h with h
        subst h
        obtain ⟨hu, hpw, hhost, _, hport⟩ := parseAuthority_wf hpa
        have hch := parsePathQF_chars
            (takeUntil (fun c => c == '/' || c == '?' || c == '#') (rest.drop 2)).2
        have hsh := parsePathQF_shape (takeUntil_snd_cases (rest.drop 2))
        exact {
          scheme_ok := hok
          scheme_lower := hlow
          username_ok := hu
          password_ok := hpw
          host_none_ui := fun hn => Option.noConfusion hn
          host_chars := by
            intro h3 hh3 c hc
            injection hh3 with hh3
            subst hh3
            exact hhost c hc
          host_special := fun hs => absurd hs hsp
          host_path := fun _ _ => hsh
          host_none_special := fun hn => Option.noConfusion hn
          host_none_slashes := fun hn => Option.noConfusion hn
          path_ok := fun _ => hch.1
          path_opq := fun hn => Option.noConfusion hn
          port_ok := hport
          search_ok := hch.2.1
          fragment_ok := hch.2.2 }
    · rw [if_neg h2] at h
      by_cases ht1 : rest.take 1 = ['/']
      · rw [if_pos ht1] at h
        dsimp only at h
        injection h with h
        subst h
        obtain ⟨t, ht⟩ : ∃ t, rest = '/' :: t := by
          cases hr : rest with
          | nil => rw [hr] at ht1; cases ht1
          | cons x t =>
            rw [hr, List.take_succ_cons] at ht1
            exact ⟨t, by rw [(List.cons.inj ht1).1]⟩
        subst ht
        have hs3 := parsePathQF_slash h2
        have hch := parsePathQF_chars ('/' :: t)
        exact {
          scheme_ok := hok
          scheme_lower := hlow
          username_ok := by intro c hc; cases hc
          password_ok := by intro c hc; cases hc
          host_none_ui := fun _ => ⟨rfl, rfl, rfl⟩
          host_chars := fun _ hh => Option.noConfusion hh
          host_special := fun hs => absurd hs hsp
          host_path := fun _ hh => Option.noConfusion hh
          host_none_special := by
            intro _
            cases hb : isSpecialScheme scheme with
            | false => rfl
            | true => exact absurd hb hsp
          host_none_slashes := fun _ => hs3.2
          path_ok := fun _ => hch.1
          path_opq := fun _ hne => absurd hs3.1 hne
          port_ok := fun _ hp => Option.noConfusion hp
          search_ok := hch.2.1
          fragment_ok := hch.2.2 }
      · rw [if_neg ht1] at h
        dsimp only at h
        injection h with h
        subst h
        have hqf := parseQF_wf
            (t := (takeUntil (fun c => c == '?' || c == '#') rest).2) rfl
        have hph : (pctEncodeL opqSet
            (takeUntil (fun c => c == '?' || c == '#') rest).1).head? ≠ some '/' := by
          intro hh
          have hrh := takeUntil_fst_head (pctEncodeL_head_slash hh)
          cases hr : rest with
          | nil => rw [hr] at hrh; cases hrh
          | cons x tt =>
            rw [hr] at hrh
            simp only [List.head?_cons] at hrh
            injection hrh with hrh
            apply ht1
            rw [hr, hrh, List.take_succ_cons]
            rfl
        exact {
          scheme_ok := hok
          scheme_lower := hlow
          username_ok := by intro c hc; cases hc
          password_ok := by intro c hc; cases hc
          host_none_ui := fun _ => ⟨rfl, rfl, rfl⟩
          host_chars := fun _ hh => Option.noConfusion hh
          host_special := fun hs => absurd hs hsp
          host_path := fun _ hh => Option.noConfusion hh
          host_none_special := by
            intro _
            cases hb : isSpecialScheme scheme with
            | false => rfl
            | true => exact absurd hb hsp
          host_none_slashes := fun _ htk => hph (take2_head htk)
          path_ok := by
            intro hyp
            rcases hyp with hne | hhd
            · exact absurd rfl hne
            · exact absurd hhd hph
          path_opq := by
            intro _ _ c hc
            rcases pctEncodeL_mem opqSet_bound hc with ⟨hm, hS⟩ | rfl | ⟨n, hn, rfl⟩
            · refine ⟨hS, ?_⟩
              have hq := takeUntil_fst_not
                  (p := fun c => c == '?' || c == '#') rest c hm
              simp only [Bool.or_eq_false_iff, beq_eq_false_iff_ne] at hq
              exact hq
            · exact ⟨by decide, by decide, by decide⟩
            · have hall : ∀ m, m < 16 → opqSet (hexDigitChar m) = false ∧
                  hexDigitChar m ≠ '?' ∧ hexDigitChar m ≠ '#' := by decide
              exact hall n hn
          port_ok := fun _ hp => Option.noConfusion hp
          search_ok := hqf.1
          fragment_ok := hqf.2 }

theorem parse_wf {s : String} {r : URLRec} (h : parseUrl s = some r) : WF r := by
  rw [parseUrl] at h
  cases hsf : splitFirst (fun c => c == ':') s.data with
  | none => rw [hsf] at h; cases h
  | some q =>
    rw [hsf] at h
    dsimp only at h
    by_cases hok : schemeOk q.1 = true
    · rw [if_pos hok] at h
      exact parseUrlAux_wf (schemeOk_toLower hok) (map_toLower_idem q.1) h
    · rw [if_neg hok] at h
      cases h

/-! ## Utility lemmas for the cleaning pipeline -/

theorem mem_empty_str {c : Char} (h : c ∈ ("" : String).data) : False := by
  cases h

theorem data_append (s t : String) : (s ++ t).data = s.data ++ t.data := rfl

theorem parseQuery_empty : parseQuery "" = [] := rfl

theorem not_ws_of_gt32 {c : Char} (h : 32 < c.toNat) : jsWhitespaceChar c = false := by
  simp only [jsWhitespaceChar, decide_eq_false_iff_not]
  omega

theorem takeUntil_snd_subset {p : Char → Bool} {l : List Char} :
    ∀ c ∈ (takeUntil p l).2, c ∈ l := by
  intro c hc
  have h := takeUntil_append_eq (p := p) l
  rw [← h]
  exact List.mem_append.mpr (Or.inr hc)

theorem dropWhile_subset_mem {p : Char → Bool} {l : List Char} :
    ∀ c ∈ List.dropWhile p l, c ∈ l := by
  induction l with
  | nil => intro c hc; cases hc
  | cons x t ih =>
    intro c hc
    rw [List.dropWhile_cons] at hc
    by_cases hx : p x = true
    · rw [if_pos hx] at hc
      exact List.mem_cons.mpr (Or.inr (ih c hc))
    · rw [if_neg hx] at hc
      exact hc

theorem drop_subset_mem {l : List Char} {n : Nat} : ∀ c ∈ l.drop n, c ∈ l := by
  intro c hc
  exact List.drop_subset n l hc

theorem getLast_append_cons {X Y : List Char} {y : Char} :
    (X ++ y :: Y).getLast? = (y :: Y).getLast? :=
  List.getLast?_append_of_ne_nil X (by simp)

theorem getLast_cons_mem {y c : Char} {Y : List Char}
    (h : (y :: Y).getLast? = some c) : c ∈ y :: Y := by
  induction Y generalizing y with
  | nil =>
    have h2 : some y = some c := h
    injection h2 with h2
    subst h2
    exact List.mem_cons_self y []
  | cons b W ih =>
    rw [List.getLast?_cons_cons] at h
    exact List.mem_cons.mpr (Or.inr (ih h))

theorem trimList_eq_self {l : List Char}
    (h1 : ∀ c, l.head? = some c → jsWhitespaceChar c = false)
    (h2 : ∀ c, l.getLast? = some c → jsWhitespaceChar c = false) :
    ((l.dropWhile jsWhitespaceChar).reverse.dropWhile jsWhitespaceChar).reverse = l := by
  cases hd : l with
  | nil => rfl
  | cons x t =>
    have hdw : (x :: t).dropWhile jsWhitespaceChar = x :: t :=
      dropWhile_eq_self_of_head rfl (h1 x (by rw [hd]; rfl))
    rw [hdw]
    cases hg : (x :: t).getLast? with
    | none =>
      rw [List.getLast?_eq_none_iff] at hg
      cases hg
    | some y =>
      have hrh : (x :: t).reverse.head? = some y := by
        rw [List.head?_reverse]
        exact hg
      rw [dropWhile_eq_self_of_head hrh (h2 y (by rw [hd]; exact hg)), List.reverse_reverse]

theorem jsTrim_eq_self {s : String}
    (h1 : ∀ c, s.data.head? = some c → jsWhitespaceChar c = false)
    (h2 : ∀ c, s.data.getLast? = some c → jsWhitespaceChar c = false) :
    jsTrim s = s := by
  rw [jsTrim, str_eq_iff_data]
  exact trimList_eq_self h1 h2

theorem jsTrim_mem {s : String} : ∀ c ∈ (jsTrim s).data, c ∈ s.data := by
  intro c hc
  have hc2 : c ∈ ((s.data.dropWhile jsWhitespaceChar).reverse.dropWhile
      jsWhitespaceChar).reverse := hc
  rw [List.mem_reverse] at hc2
  have hc3 := dropWhile_subset_mem c hc2
  rw [List.mem_reverse] at hc3
  exact dropWhile_subset_mem c hc3

theorem filter_not_filter {α : Type} (p : α → Bool) (l : List α) :
    (l.filter (fun a => !p a)).filter p = [] := by
  rw [List.filter_eq_nil_iff]
  intro a ha
  have h2 := (List.mem_filter.mp ha).2
  simp only [Bool.not_eq_true'] at h2
  simp [h2]

theorem noqf_of_toNat {c : Char} (h63 : c.toNat ≠ 63) (h35 : c.toNat ≠ 35) :
    (c == '?') = false ∧ (c == '#') = false :=
  ⟨beq_char_false (show c.toNat ≠ Char.toNat '?' from h63),
   beq_char_false (show c.toNat ≠ Char.toNat '#' from h35)⟩

theorem scheme_char_noqf {c : Char} (h : asciiAlpha c = true ∨ schemeCharOk c = true) :
    (c == '?') = false ∧ (c == '#') = false := by
  have h6 := schemeChar_toNat h
  have h63 : c.toNat ≠ 63 := by rcases h6 with h | h | h | h | h | h <;> omega
  have h35 : c.toNat ≠ 35 := by rcases h6 with h | h | h | h | h | h <;> omega
  exact noqf_of_toNat h63 h35

theorem path_noqf {r : URLRec} (w : WF r) :
    ∀ c ∈ r.path.data, (c == '?') = false ∧ (c == '#') = false := by
  intro c hc
  by_cases hh : r.host = none
  · by_cases hph : r.path.data.head? = some '/'
    · have hp := pathSet_false_arith (w.path_ok (Or.inr hph) c hc)
      exact noqf_of_toNat hp.2.2.2.2.2.2.1 hp.2.2.1
    · obtain ⟨_, h2, h3⟩ := w.path_opq hh hph c hc
      constructor
      · cases hb : (c == '?') with
        | false => rfl
        | true => exact absurd (eq_of_beq hb) h2
      · cases hb : (c == '#') with
        | false => rfl
        | true => exact absurd (eq_of_beq hb) h3
  · have hp := pathSet_false_arith (w.path_ok (Or.inl hh) c hc)
    exact noqf_of_toNat hp.2.2.2.2.2.2.1 hp.2.2.1

theorem serialize_noqf {r : URLRec} (w : WF r) (hs0 : r.search = "") (hf0 : r.fragment = "") :
    ∀ c ∈ r.serialize.data, (c == '?') = false ∧ (c == '#') = false := by
  intro c hc
  have hc2 : c ∈ r.scheme.data ++
      ':' :: (hostPart r ++ r.path.data ++ searchPart r ++ fragmentPart r) := hc
  rw [searchPart, if_pos hs0, fragmentPart, if_pos hf0, List.append_nil,
    List.append_nil] at hc2
  rcases List.mem_append.mp hc2 with hc3 | hc3
  · exact scheme_char_noqf (schemeOk_chars w.scheme_ok c hc3)
  · rcases List.mem_cons.mp hc3 with rfl | hc3
    · exact ⟨by decide, by decide⟩
    rcases List.mem_append.mp hc3 with hc4 | hc4
    · rw [hostPart] at hc4
      cases hh : r.host with
      | none => rw [hh] at hc4; cases hc4
      | some h =>
        rw [hh] at hc4
        dsimp only at hc4
        rcases List.mem_cons.mp hc4 with rfl | hc4
        · exact ⟨by decide, by decide⟩
        rcases List.mem_cons.mp hc4 with rfl | hc4
        · exact ⟨by decide, by decide⟩
        rcases List.mem_append.mp hc4 with hc5 | hc5
        · rcases List.mem_append.mp hc5 with hc6 | hc6
          · rcases userinfoPart_chars w.username_ok w.password_ok c hc6 with hu | hn | hn
            · have := userinfoSet_false_arith hu
              exact noqf_of_toNat this.2.2.2.2.2.2.1 this.2.2.1
            · exact noqf_of_toNat (by omega) (by omega)
            · exact noqf_of_toNat (by omega) (by omega)
          · have := forbidden_false_arith (w.host_chars h hh c hc6)
            exact noqf_of_toNat this.2.2.2.2.2.2.2.1 this.2.1
        · rcases portPart_chars (fun p hp => (w.port_ok p hp).2.1) c hc5 with hn | hn
          · exact noqf_of_toNat (by omega) (by omega)
          · exact noqf_of_toNat (by omega) (by omega)
    · exact path_noqf w c hc4

theorem origin_path_noq {url : URLRec} (w : WF url) :
    ∀ c ∈ (url.origin ++ url.pathname).data, (c == '?') = false ∧ (c == '#') = false := by
  have hnull : ∀ c ∈ ("null" : String).data, (c == '?') = false ∧ (c == '#') = false := by
    decide
  intro c hc
  rw [data_append] at hc
  rcases List.mem_append.mp hc with hc1 | hc1
  · rw [URLRec.origin] at hc1
    cases hh : url.host with
    | none => rw [hh] at hc1; exact hnull c hc1
    | some h =>
      rw [hh] at hc1
      dsimp only at hc1
      by_cases ho : hasOriginScheme url.scheme = true
      · rw [if_pos ho] at hc1
        have hc2 : c ∈ url.scheme.data ++ ':' :: '/' :: '/' :: (h.data ++ portPart url) := hc1
        rcases List.mem_append.mp hc2 with hc3 | hc3
        · exact scheme_char_noqf (schemeOk_chars w.scheme_ok c hc3)
        · rcases List.mem_cons.mp hc3 with rfl | hc3
          · exact ⟨by decide, by decide⟩
          rcases List.mem_cons.mp hc3 with rfl | hc3
          · exact ⟨by decide, by decide⟩
          rcases List.mem_cons.mp hc3 with rfl | hc3
          · exact ⟨by decide, by decide⟩
          rcases List.mem_append.mp hc3 with hc4 | hc4
          · have := forbidden_false_arith (w.host_chars h hh c hc4)
            exact noqf_of_toNat this.2.2.2.2.2.2.2.1 this.2.1
          · rcases portPart_chars (fun p hp => (w.port_ok p hp).2.1) c hc4 with hn | hn
            · exact noqf_of_toNat (by omega) (by omega)
            · exact noqf_of_toNat (by omega) (by omega)
      · rw [if_neg ho] at hc1
        exact hnull c hc1
  · exact path_noqf w c hc1

theorem serialize_head_not_ws {r : URLRec} (w : WF r) :
    ∀ c, r.serialize.data.head? = some c → jsWhitespaceChar c = false := by
  intro c hc
  cases hs : r.scheme.data with
  | nil =>
    have hok := w.scheme_ok
    rw [hs] at hok
    cases hok
  | cons a t =>
    have hc2 : (r.scheme.data ++
        ':' :: (hostPart r ++ r.path.data ++ searchPart r ++ fragmentPart r)).head? =
        some c := hc
    rw [hs, List.cons_append] at hc2
    simp only [List.head?_cons] at hc2
    injection hc2 with hc2
    subst hc2
    have hok := w.scheme_ok
    rw [hs, schemeOk, Bool.and_eq_true] at hok
    have ha := hok.1
    simp only [asciiAlpha, decide_eq_true_eq] at ha
    exact not_ws_of_gt32 (by omega)

theorem serialize_getLast_not_ws {r : URLRec} (w : WF r)
    (hsf : ¬(r.search = "" ∧ r.fragment = "")) :
    ∀ c, r.serialize.data.getLast? = some c → jsWhitespaceChar c = false := by
  intro c hc
  have hc2 : (r.scheme.data ++
      ':' :: (hostPart r ++ r.path.data ++ searchPart r ++ fragmentPart r)).getLast? =
      some c := hc
  by_cases hf : r.fragment = ""
  · have hsne : r.search ≠ "" := fun h => hsf ⟨h, hf⟩
    rw [fragmentPart, if_pos hf, List.append_nil, searchPart, if_neg hsne] at hc2
    have hsh : r.scheme.data ++ ':' :: (hostPart r ++ r.path.data ++ '?' :: r.search.data) =
        (r.scheme.data ++ ':' :: (hostPart r ++ r.path.data)) ++ '?' :: r.search.data := by
      simp [List.append_assoc]
    rw [hsh, getLast_append_cons] at hc2
    rcases List.mem_cons.mp (getLast_cons_mem hc2) with rfl | hcm
    · decide
    · exact not_ws_of_gt32 (querySet_false_arith (w.search_ok c hcm)).1
  · rw [fragmentPart, if_neg hf] at hc2
    have hsh : r.scheme.data ++
        ':' :: (hostPart r ++ r.path.data ++ searchPart r ++ '#' :: r.fragment.data) =
        (r.scheme.data ++ ':' :: (hostPart r ++ r.path.data ++ searchPart r)) ++
          '#' :: r.fragment.data := by
      simp [List.append_assoc]
    rw [hsh, getLast_append_cons] at hc2
    rcases List.mem_cons.mp (getLast_cons_mem hc2) with rfl | hcm
    · decide
    · exact not_ws_of_gt32 (fragmentSet_false_arith (w.fragment_ok c hcm)).1

theorem parseUrlAux_noq {scheme : String} {rest : List Char} {r : URLRec}
    (h : parseUrlAux scheme rest = some r)
    (hq : ∀ c ∈ rest, (c == '?') = false ∧ (c == '#') = false) :
    r.search = "" := by
  have hdelim : ∀ c ∈ rest, (c == '?' || c == '#') = false := by
    intro c hc
    obtain ⟨h1, h2⟩ := hq c hc
    rw [h1, h2]
    rfl
  rw [parseUrlAux] at h
  by_cases hsp : isSpecialScheme scheme = true
  · rw [if_pos hsp] at h
    dsimp only at h
    cases hpa : parseAuthority scheme
        (takeUntil (fun c => c == '/' || c == '?' || c == '#')
          (List.dropWhile (fun c => c == '/') rest)).1 with
    | none => rw [hpa] at h; cases h
    | some q =>
      obtain ⟨u, pw, host, port⟩ := q
      rw [hpa] at h
      dsimp only at h
      by_cases hhe : host = ""
      · rw [if_pos hhe] at h; cases h
      · rw [if_neg hhe] at h
        injection h with h
        rw [← h]
        dsimp only
        rw [parsePathQF]
        dsimp only
        rcases takeUntil_snd_cases (p := fun c => c == '?' || c == '#')
            (takeUntil (fun c => c == '/' || c == '?' || c == '#')
              (List.dropWhile (fun c => c == '/') rest)).2 with hz | ⟨d, t, hz, hd⟩
        · rw [hz, parseQF_nil]
        · have hdm : d ∈ rest := dropWhile_subset_mem d (takeUntil_snd_subset d
            (takeUntil_snd_subset d (by rw [hz]; exact List.mem_cons_self d t)))
          rw [hdelim d hdm] at hd
          cases hd
  · rw [if_neg hsp] at h
    by_cases h2 : rest.take 2 = ['/', '/']
    · rw [if_pos h2] at h
      dsimp only at h
      cases hpa : parseAuthority scheme
          (takeUntil (fun c => c == '/' || c == '?' || c == '#') (rest.drop 2)).1 with
      | none => rw [hpa] at h; cases h
      | some q =>
        obtain ⟨u, pw, host, port⟩ := q
        rw [hpa] at h
        dsimp only at h
        injection h with h
        rw [← h]
        dsimp only
        rw [parsePathQF]
        dsimp only
        rcases takeUntil_snd_cases (p := fun c => c == '?' || c == '#')
            (takeUntil (fun c => c == '/' || c == '?' || c == '#') (rest.drop 2)).2 with
          hz | ⟨d, t, hz, hd⟩
        · rw [hz, parseQF_nil]
        · have hdm : d ∈ rest := drop_subset_mem d (takeUntil_snd_subset d
            (takeUntil_snd_subset d (by rw [hz]; exact List.mem_cons_self d t)))
          rw [hdelim d hdm] at hd
          cases hd
    · rw [if_neg h2] at h
      by_cases ht1 : rest.take 1 = ['/']
      · rw [if_pos ht1] at h
        dsimp only at h
        injection h with h
        rw [← h]
        dsimp only
        rw [parsePathQF]
        dsimp only
        rcases takeUntil_snd_cases (p := fun c => c == '?' || c == '#') rest with
          hz | ⟨d, t, hz, hd⟩
        · rw [hz, parseQF_nil]
        · have hdm : d ∈ rest := takeUntil_snd_subset d
            (by rw [hz]; exact List.mem_cons_self d t)
          rw [hdelim d hdm] at hd
          cases hd
      · rw [if_neg ht1] at h
        dsimp only at h
        injection h with h
        rw [← h]
        dsimp only
        rcases takeUntil_snd_cases (p := fun c => c == '?' || c == '#') rest with
          hz | ⟨d, t, hz, hd⟩
        · rw [hz, parseQF_nil]
        · have hdm : d ∈ rest := takeUntil_snd_subset d
            (by rw [hz]; exact List.mem_cons_self d t)
          rw [hdelim d hdm] at hd
          cases hd

theorem parse_noq {s : String} {r : URLRec} (h : parseUrl s = some r)
    (hq : ∀ c ∈ s.data, (c == '?') = false ∧ (c == '#') = false) :
    r.search = "" := by
  rw [parseUrl] at h
  cases hsf : splitFirst (fun c => c == ':') s.data with
  | none => rw [hsf] at h; cases h
  | some q =>
    rw [hsf] at h
    dsimp only at h
    by_cases hok : schemeOk q.1 = true
    · rw [if_pos hok] at h
      obtain ⟨x, hx, heq, hpre⟩ := splitFirst_sound hsf
      refine parseUrlAux_noq h ?_
      intro c hc
      exact hq c (by
        rw [heq]
        exact List.mem_append.mpr (Or.inr (List.mem_cons.mpr (Or.inr hc))))
    · rw [if_neg hok] at h
      cases h

theorem setSearch_wf {r : URLRec} (w : WF r) (v : String) : WF (r.setSearch v) :=
  { scheme_ok := w.scheme_ok, scheme_lower := w.scheme_lower,
    username_ok := w.username_ok, password_ok := w.password_ok,
    host_none_ui := w.host_none_ui, host_chars := w.host_chars,
    host_special := w.host_special, host_path := w.host_path,
    host_none_special := w.host_none_special, host_none_slashes := w.host_none_slashes,
    path_ok := w.path_ok, path_opq := w.path_opq, port_ok := w.port_ok,
    search_ok := fun c hc => pct_query_chars c hc, fragment_ok := w.fragment_ok }

theorem setHash_wf {r : URLRec} (w : WF r) (v : String) : WF (r.setHash v) :=
  { scheme_ok := w.scheme_ok, scheme_lower := w.scheme_lower,
    username_ok := w.username_ok, password_ok := w.password_ok,
    host_none_ui := w.host_none_ui, host_chars := w.host_chars,
    host_special := w.host_special, host_path := w.host_path,
    host_none_special := w.host_none_special, host_none_slashes := w.host_none_slashes,
    path_ok := w.path_ok, path_opq := w.path_opq, port_ok := w.port_ok,
    search_ok := w.search_ok, fragment_ok := fun c hc => pct_fragment_chars c hc }

theorem stripped_wf {r : URLRec} (w : WF r) :
    WF { r with username := "", password := "", search := "", fragment := "" } :=
  { scheme_ok := w.scheme_ok, scheme_lower := w.scheme_lower,
    username_ok := fun c hc => absurd (mem_empty_str hc) not_false,
    password_ok := fun c hc => absurd (mem_empty_str hc) not_false,
    host_none_ui := fun hn => ⟨rfl, rfl, (w.host_none_ui hn).2.2⟩,
    host_chars := w.host_chars, host_special := w.host_special, host_path := w.host_path,
    host_none_special := w.host_none_special, host_none_slashes := w.host_none_slashes,
    path_ok := w.path_ok, path_opq := w.path_opq, port_ok := w.port_ok,
    search_ok := fun c hc => absurd (mem_empty_str hc) not_false,
    fragment_ok := fun c hc => absurd (mem_empty_str hc) not_false }

theorem withHash_cases (ws : URLRec) (wfs : WF ws) (u : URLRec) :
    ∃ fin, (if u.hashStr = "" then ws
        else
          match cleanHashFragment u.fragment with
          | some ch => if ch = "" then ws else ws.setHash ("#" ++ ch)
          | none => ws) = fin ∧
      WF fin ∧ fin.search = ws.search ∧ fin.username = ws.username ∧
      fin.password = ws.password := by
  by_cases h1 : u.hashStr = ""
  · rw [if_pos h1]
    exact ⟨ws, rfl, wfs, rfl, rfl, rfl⟩
  · rw [if_neg h1]
    cases h2 : cleanHashFragment u.fragment with
    | none => exact ⟨ws, rfl, wfs, rfl, rfl, rfl⟩
    | some ch =>
      dsimp only
      by_cases h3 : ch = ""
      · rw [if_pos h3]
        exact ⟨ws, rfl, wfs, rfl, rfl, rfl⟩
      · rw [if_neg h3]
        exact ⟨ws.setHash ("#" ++ ch), rfl, setHash_wf wfs _, rfl, rfl, rfl⟩

theorem cleanUrl_eq_cleanParsed {s : String} {url : URLRec} (hs : s ≠ "")
    (hp : parseUrl (jsTrim s) = some url) : cleanUrl s = cleanParsed s url := by
  have hv : isValidUrl (jsTrim s) = true := by rw [isValidUrl, hp]; rfl
  rw [cleanUrl, if_neg hs]
  dsimp only
  rw [hv, if_pos rfl, hp]

theorem cleanUrl_success_inv {s : String} (hs : (cleanUrl s).success = true) :
    s ≠ "" ∧ ∃ url, parseUrl (jsTrim s) = some url := by
  by_cases he : s = ""
  · rw [cleanUrl, if_pos he] at hs
    simp [invalidInputResult] at hs
  · refine ⟨he, ?_⟩
    rw [cleanUrl, if_neg he] at hs
    dsimp only at hs
    cases hv : isValidUrl (jsTrim s) with
    | false =>
      rw [hv, if_neg (by simp)] at hs
      simp [invalidFormatResult] at hs
    | true =>
      rw [hv, if_pos rfl] at hs
      cases hp : parseUrl (jsTrim s) with
      | none =>
        rw [hp] at hs
        simp [invalidFormatResult] at hs
      | some url => exact ⟨url, rfl⟩

theorem cleanParsed_success_base {o : String} {url : URLRec}
    (hs : (cleanParsed o url).success = true) :
    ∃ base, parseUrl (url.origin ++ url.pathname) = some base := by
  rw [cleanParsed] at hs
  dsimp only at hs
  cases hb : parseUrl (url.origin ++ url.pathname) with
  | none =>
    rw [hb] at hs
    simp [processingErrorResult] at hs
  | some base => exact ⟨base, rfl⟩

theorem cleanParsed_shape {o : String} {url base : URLRec} (w : WF url)
    (hb : parseUrl (url.origin ++ url.pathname) = some base) :
    ∃ fin : URLRec, WF fin ∧
      cleanParsed o url =
        ({ success := true, error := none, originalUrl := o,
           cleanedUrl := some fin.serialize,
           removedParams :=
             (parseQuery url.searchStr).filter (fun p => isTrackingParam p.1),
           removedCount :=
             ((parseQuery url.searchStr).filter (fun p => isTrackingParam p.1)).length,
           hasChanges := some (decide
             (((parseQuery url.searchStr).filter
               (fun p => isTrackingParam p.1)).length > 0)),
           savedBytes := some ((o.length : Int) - (fin.serialize.length : Int)) } :
          CleanResult) ∧
      fin.username = base.username ∧ fin.password = base.password ∧
      (fin.search = "" ∧
          (parseQuery url.searchStr).filter (fun p => !isTrackingParam p.1) = [] ∨
        fin.search =
            serializeQuery
              ((parseQuery url.searchStr).filter (fun p => !isTrackingParam p.1)) ∧
          (parseQuery url.searchStr).filter (fun p => !isTrackingParam p.1) ≠ []) ∧
      parseQuery fin.searchStr =
        (parseQuery url.searchStr).filter (fun p => !isTrackingParam p.1) := by
  have hbase := parse_wf hb
  have hbs : base.search = "" := parse_noq hb (origin_path_noq w)
  rw [cleanParsed]
  dsimp only
  rw [hb]
  dsimp only
  rw [List.partition_eq_filter_filter]
  dsimp only
  by_cases hk : serializeQuery
      ((parseQuery url.searchStr).filter (not ∘ fun p => isTrackingParam p.1)) = ""
  · rw [if_pos hk]
    have hkept : (parseQuery url.searchStr).filter (not ∘ fun p => isTrackingParam p.1) =
        [] := (serializeQuery_eq_empty_iff _).mp hk
    obtain ⟨fin, heq, hwf, hsrch, hu, hpw⟩ := withHash_cases base hbase url
    rw [heq]
    refine ⟨fin, hwf, rfl, hu, hpw, Or.inl ⟨hsrch.trans hbs, hkept⟩, ?_⟩
    rw [URLRec.searchStr, if_pos (hsrch.trans hbs), parseQuery_empty]
    exact hkept.symm
  · rw [if_neg hk]
    have hstrip : stripLeadChar '?'
        (serializeQuery ((parseQuery url.searchStr).filter
          (not ∘ fun p => isTrackingParam p.1))).data =
        (serializeQuery ((parseQuery url.searchStr).filter
          (not ∘ fun p => isTrackingParam p.1))).data :=
      stripLeadChar_id (fun x hx =>
        ne_char_of_toNat_ne (show x.toNat ≠ Char.toNat '?' from (serializeQuery_chars hx).2.1))
    have hws_search : (base.setSearch (serializeQuery ((parseQuery url.searchStr).filter
        (not ∘ fun p => isTrackingParam p.1)))).search =
        serializeQuery ((parseQuery url.searchStr).filter
          (not ∘ fun p => isTrackingParam p.1)) := by
      rw [URLRec.setSearch]
      dsimp only
      rw [hstrip, pctEncodeL_id (fun c hc => (serializeQuery_chars hc).1)]
    obtain ⟨fin, heq, hwf, hsrch, hu, hpw⟩ :=
      withHash_cases (base.setSearch (serializeQuery ((parseQuery url.searchStr).filter
        (not ∘ fun p => isTrackingParam p.1)))) (setSearch_wf hbase _) url
    rw [heq]
    have hfins : fin.search = serializeQuery ((parseQuery url.searchStr).filter
        (not ∘ fun p => isTrackingParam p.1)) := hsrch.trans hws_search
    have hkne : (parseQuery url.searchStr).filter (not ∘ fun p => isTrackingParam p.1) ≠
        [] := fun he => hk (by rw [he]; rfl)
    refine ⟨fin, hwf, rfl, hu, hpw, Or.inr ⟨hfins, hkne⟩, ?_⟩
    have hne2 : fin.search ≠ "" := by rw [hfins]; exact hk
    rw [URLRec.searchStr, if_neg hne2, hfins]
    have hq0 := parseQuery_serializeQuery ((parseQuery url.searchStr).filter
      (not ∘ fun p => isTrackingParam p.1))
    rw [parseQuery, hstrip] at hq0
    have hd2 : ("?" ++ serializeQuery ((parseQuery url.searchStr).filter
        (not ∘ fun p => isTrackingParam p.1))).data =
        '?' :: (serializeQuery ((parseQuery url.searchStr).filter
          (not ∘ fun p => isTrackingParam p.1))).data := rfl
    rw [parseQuery, hd2]
    have hstr2 : stripLeadChar '?' ('?' :: (serializeQuery ((parseQuery url.searchStr).filter
        (not ∘ fun p => isTrackingParam p.1))).data) =
        (serializeQuery ((parseQuery url.searchStr).filter
          (not ∘ fun p => isTrackingParam p.1))).data := rfl
    rw [hstr2]
    exact hq0

theorem isValid_false_of_not {s : String} (hv : ¬isValidUrl s = true) :
    isValidUrl s = false := by
  cases hb : isValidUrl s with
  | false => rfl
  | true => exact absurd hb hv

theorem cleanUrl_removedCount_no_tracking {s : String}
    (hkeys : ∀ url, parseUrl (jsTrim s) = some url →
      (parseQuery url.searchStr).filter (fun p => isTrackingParam p.1) = []) :
    (cleanUrl s).removedCount = 0 := by
  by_cases he : s = ""
  · rw [cleanUrl, if_pos he]
    rfl
  · rw [cleanUrl, if_neg he]
    dsimp only
    by_cases hv : isValidUrl (jsTrim s) = true
    · rw [hv, if_pos rfl]
      cases hp : parseUrl (jsTrim s) with
      | none => rfl
      | some url =>
        dsimp only
        rw [cleanParsed]
        dsimp only
        cases hb : parseUrl (url.origin ++ url.pathname) with
        | none => rfl
        | some base =>
          dsimp only
          rw [List.partition_eq_filter_filter]
          dsimp only
          rw [hkeys url hp]
          rfl
    · rw [isValid_false_of_not hv, if_neg (by simp)]
      rfl

theorem cleanUrl_removedCount_eq_length (s : String) :
    (cleanUrl s).removedCount = (cleanUrl s).removedParams.length := by
  by_cases he : s = ""
  · rw [cleanUrl, if_pos he]
    rfl
  · rw [cleanUrl, if_neg he]
    dsimp only
    by_cases hv : isValidUrl (jsTrim s) = true
    · rw [hv, if_pos rfl]
      cases hp : parseUrl (jsTrim s) with
      | none => rfl
      | some url =>
        dsimp only
        rw [cleanParsed]
        dsimp only
        cases hb : parseUrl (url.origin ++ url.pathname) with
        | none => rfl
        | some base => rfl
    · rw [isValid_false_of_not hv, if_neg (by simp)]
      rfl

theorem null_path_parse_none {p : String} (hp : p = "" ∨ p.data.head? = some '/') :
    parseUrl ("null" ++ p) = none := by
  rcases hp with rfl | hp
  · decide
  · obtain ⟨t, ht⟩ : ∃ t, p.data = '/' :: t := by
      cases hd : p.data with
      | nil => rw [hd] at hp; cases hp
      | cons x tt =>
        rw [hd] at hp
        simp only [List.head?_cons, Option.some_inj] at hp
        exact ⟨tt, by rw [hp]⟩
    have hdata : ("null" ++ p).data = 'n' :: 'u' :: 'l' :: 'l' :: '/' :: t := by
      rw [data_append, ht]
      rfl
    rw [parseUrl, hdata]
    cases hsf : splitFirst (fun c => c == ':') ('n' :: 'u' :: 'l' :: 'l' :: '/' :: t) with
    | none => rfl
    | some q =>
      obtain ⟨x, hx, heq, hpre⟩ := splitFirst_sound hsf
      obtain ⟨a1, a2⟩ := q
      dsimp only
      dsimp only at heq
      have hso : schemeOk a1 = false := by
        rcases a1 with _ | ⟨b1, _ | ⟨b2, _ | ⟨b3, _ | ⟨b4, _ | ⟨b5, r5⟩⟩⟩⟩⟩
        · rw [List.nil_append] at heq
          injection heq with h1 _
          rw [← h1] at hx
          exact absurd hx (by decide)
        · rw [List.cons_append, List.nil_append] at heq
          injection heq with h1 heq
          injection heq with h2 _
          rw [← h2] at hx
          exact absurd hx (by decide)
        · simp only [List.cons_append, List.nil_append] at heq
          injection heq with h1 heq
          injection heq with h2 heq
          injection heq with h3 _
          rw [← h3] at hx
          exact absurd hx (by decide)
        · simp only [List.cons_append, List.nil_append] at heq
          injection heq with h1 heq
          injection heq with h2 heq
          injection heq with h3 heq
          injection heq with h4 _
          rw [← h4] at hx
          exact absurd hx (by decide)
        · simp only [List.cons_append, List.nil_append] at heq
          injection heq with h1 heq
          injection heq with h2 heq
          injection heq with h3 heq
          injection heq with h4 heq
          injection heq with h5 _
          rw [← h5] at hx
          exact absurd hx (by decide)
        · simp only [List.cons_append] at heq
          injection heq with h1 heq
          injection heq with h2 heq
          injection heq with h3 heq
          injection heq with h4 heq
          injection heq with h5 heq
          rw [schemeOk]
          subst h5
          cases hall : (b2 :: b3 :: b4 :: '/' :: r5).all schemeCharOk with
          | false => rw [Bool.and_false]
          | true =>
            have hbad := List.all_eq_true.mp hall '/' (by simp)
            exact absurd hbad (by decide)
      rw [hso]
      rw [if_neg (by simp)]

theorem catsList_pushParam (acc : Categories) (p : RemovedParam) :
    List.Perm (catsList (pushParam acc p)) (catsList acc ++ [p]) := by
  refine Multiset.coe_eq_coe.mp ?_
  rw [pushParam]
  dsimp only
  by_cases h1 : leadsWith "utm_".data (toLowerStr p.1).data = true
  · rw [if_pos h1]
    simp only [catsList]
    simp only [← Multiset.coe_add]
    abel
  · rw [if_neg h1]
    by_cases h2 : socialKeys.contains (toLowerStr p.1) = true
    · rw [if_pos h2]
      simp only [catsList]
      simp only [← Multiset.coe_add]
      abel
    · rw [if_neg h2]
      by_cases h3 : adsKeys.contains (toLowerStr p.1) = true
      · rw [if_pos h3]
        simp only [catsList]
        simp only [← Multiset.coe_add]
        abel
      · rw [if_neg h3]
        by_cases h4 : affiliateKeys.contains (toLowerStr p.1) = true
        · rw [if_pos h4]
          simp only [catsList]
          simp only [← Multiset.coe_add]
          abel
        · rw [if_neg h4]
          by_cases h5 : emailKeys.contains (toLowerStr p.1) = true
          · rw [if_pos h5]
            simp only [catsList]
            simp only [← Multiset.coe_add]
            abel
          · rw [if_neg h5]
            simp only [catsList]
            simp only [← Multiset.coe_add]
            abel

theorem catsList_foldl (l : List RemovedParam) :
    ∀ acc, List.Perm (catsList (l.foldl pushParam acc)) (catsList acc ++ l) := by
  induction l with
  | nil =>
    intro acc
    rw [List.foldl_nil, List.append_nil]
  | cons p t ih =>
    intro acc
    rw [List.foldl_cons]
    refine (ih (pushParam acc p)).trans ?_
    refine (List.Perm.append_right t (catsList_pushParam acc p)).trans ?_
    rw [List.append_assoc]
    exact List.Perm.refl _

theorem catsList_categorize (l : List RemovedParam) :
    List.Perm (catsList (categorizeParams l)) l := by
  have h := catsList_foldl l emptyCategories
  rw [categorizeParams]
  have he : catsList emptyCategories = [] := rfl
  rw [he] at h
  exact h

theorem catsList_length (c : Categories) :
    (catsList c).length = c.utm.length + c.social.length + c.ads.length +
      c.affiliate.length + c.email.length + c.analytics.length := by
  simp [catsList, List.length_append]
  omega

/-! # The claims -/

/-- C1: on every input where `cleanUrl` succeeds, a query parameter is removed
iff its key passes `isTrackingParam` (exact, case-insensitive match against the
tracking table): `removedParams` is exactly the in-order sublist of tracking
entries with their original keys and values, and `cleanedUrl` reparses to a
record whose query entries are exactly the in-order non-tracking entries. -/
theorem cleanUrl_filters_exactly {s : String} (hs : (cleanUrl s).success = true) :
    ∃ url fin : URLRec, parseUrl (jsTrim s) = some url ∧
      (cleanUrl s).removedParams =
        (parseQuery url.searchStr).filter (fun p => isTrackingParam p.1) ∧
      (cleanUrl s).cleanedUrl = some fin.serialize ∧
      parseUrl fin.serialize = some fin ∧
      parseQuery fin.searchStr =
        (parseQuery url.searchStr).filter (fun p => !isTrackingParam p.1) := by
  obtain ⟨hne, url, hp⟩ := cleanUrl_success_inv hs
  have heqc := cleanUrl_eq_cleanParsed hne hp
  rw [heqc] at hs
  obtain ⟨base, hb⟩ := cleanParsed_success_base hs
  obtain ⟨fin, hwf, hrec, hu, hpw, hdisj, hquery⟩ := cleanParsed_shape (parse_wf hp) hb
  refine ⟨url, fin, hp, ?_, ?_, serialize_parse hwf, hquery⟩
  · rw [heqc, hrec]
  · rw [heqc, hrec]

theorem cleanUrl_filters_exactly_witness :
    (cleanUrl "https://a.b/p?x=1&utm_source=n").success = true ∧
    ∃ url fin : URLRec, parseUrl (jsTrim "https://a.b/p?x=1&utm_source=n") = some url ∧
      (cleanUrl "https://a.b/p?x=1&utm_source=n").removedParams =
        (parseQuery url.searchStr).filter (fun p => isTrackingParam p.1) ∧
      (cleanUrl "https://a.b/p?x=1&utm_source=n").cleanedUrl = some fin.serialize ∧
      parseUrl fin.serialize = some fin ∧
      parseQuery fin.searchStr =
        (parseQuery url.searchStr).filter (fun p => !isTrackingParam p.1) :=
  ⟨by decide, cleanUrl_filters_exactly (by decide)⟩

/-- C2: on every input where `analyzeUrl` succeeds, the six category lists are a
partition of `removedParams` up to permutation (so every removed parameter lands
in exactly one bucket), each summary count is the length of its bucket, and the
six counts sum to `removedCount`. -/
theorem analyzeUrl_partition {u : String} (hs : (analyzeUrl u).success = true) :
    List.Perm (catsList (analyzeUrl u).categories) (analyzeUrl u).removedParams ∧
    (analyzeUrl u).summary.utm = (analyzeUrl u).categories.utm.length ∧
    (analyzeUrl u).summary.social = (analyzeUrl u).categories.social.length ∧
    (analyzeUrl u).summary.ads = (analyzeUrl u).categories.ads.length ∧
    (analyzeUrl u).summary.affiliate = (analyzeUrl u).categories.affiliate.length ∧
    (analyzeUrl u).summary.email = (analyzeUrl u).categories.email.length ∧
    (analyzeUrl u).summary.analytics = (analyzeUrl u).categories.analytics.length ∧
    (analyzeUrl u).summary.utm + (analyzeUrl u).summary.social +
      (analyzeUrl u).summary.ads + (analyzeUrl u).summary.affiliate +
      (analyzeUrl u).summary.email + (analyzeUrl u).summary.analytics =
      (analyzeUrl u).removedCount := by
  have hcu : (cleanUrl u).success = true := by
    rw [analyzeUrl] at hs
    dsimp only at hs
    by_cases hcs : (cleanUrl u).success = false
    · rw [if_pos hcs] at hs
      exact hs
    · rw [if_neg hcs] at hs
      exact hs
  have hniff : ¬((cleanUrl u).success = false) := by rw [hcu]; simp
  rw [analyzeUrl]
  dsimp only
  rw [if_neg hniff]
  dsimp only
  have hperm := catsList_categorize (cleanUrl u).removedParams
  refine ⟨hperm, rfl, rfl, rfl, rfl, rfl, rfl, ?_⟩
  have h2 : (catsList (categorizeParams (cleanUrl u).removedParams)).length =
      (cleanUrl u).removedParams.length := hperm.length_eq
  rw [catsList_length] at h2
  rw [cleanUrl_removedCount_eq_length u]
  exact h2

theorem analyzeUrl_partition_witness :
    (analyzeUrl "https://a.b/?utm_source=1&fbclid=2&x=9").success = true ∧
    (List.Perm (catsList (analyzeUrl "https://a.b/?utm_source=1&fbclid=2&x=9").categories)
      (analyzeUrl "https://a.b/?utm_source=1&fbclid=2&x=9").removedParams ∧
    (analyzeUrl "https://a.b/?utm_source=1&fbclid=2&x=9").summary.utm =
      (analyzeUrl "https://a.b/?utm_source=1&fbclid=2&x=9").categories.utm.length ∧
    (analyzeUrl "https://a.b/?utm_source=1&fbclid=2&x=9").summary.social =
      (analyzeUrl "https://a.b/?utm_source=1&fbclid=2&x=9").categories.social.length ∧
    (analyzeUrl "https://a.b/?utm_source=1&fbclid=2&x=9").summary.ads =
      (analyzeUrl "https://a.b/?utm_source=1&fbclid=2&x=9").categories.ads.length ∧
    (analyzeUrl "https://a.b/?utm_source=1&fbclid=2&x=9").summary.affiliate =
      (analyzeUrl "https://a.b/?utm_source=1&fbclid=2&x=9").categories.affiliate.length ∧
    (analyzeUrl "https://a.b/?utm_source=1&fbclid=2&x=9").summary.email =
      (analyzeUrl "https://a.b/?utm_source=1&fbclid=2&x=9").categories.email.length ∧
    (analyzeUrl "https://a.b/?utm_source=1&fbclid=2&x=9").summary.analytics =
      (analyzeUrl "https://a.b/?utm_source=1&fbclid=2&x=9").categories.analytics.length ∧
    (analyzeUrl "https://a.b/?utm_source=1&fbclid=2&x=9").summary.utm +
      (analyzeUrl "https://a.b/?utm_source=1&fbclid=2&x=9").summary.social +
      (analyzeUrl "https://a.b/?utm_source=1&fbclid=2&x=9").summary.ads +
      (analyzeUrl "https://a.b/?utm_source=1&fbclid=2&x=9").summary.affiliate +
      (analyzeUrl "https://a.b/?utm_source=1&fbclid=2&x=9").summary.email +
      (analyzeUrl "https://a.b/?utm_source=1&fbclid=2&x=9").summary.analytics =
      (analyzeUrl "https://a.b/?utm_source=1&fbclid=2&x=9").removedCount) :=
  ⟨by decide, analyzeUrl_partition (by decide)⟩

/-- C3 counterexample: `cleanUrl "x:a:b"` succeeds with cleaned URL `"nulla:b"`,
but re-cleaning that cleaned URL does not succeed (its origin+pathname rebuild
throws), refuting the claim that the second pass always returns success; the
second pass still removes nothing. -/
theorem cleanUrl_idem_success_cex :
    (cleanUrl "x:a:b").success = true ∧
    (cleanUrl "x:a:b").cleanedUrl = some "nulla:b" ∧
    (cleanUrl "nulla:b").success = false ∧
    (cleanUrl "nulla:b").removedCount = 0 := by
  decide

/-- C3 (amended): for every input on which `cleanUrl` succeeds, re-cleaning the
returned `cleanedUrl` removes no parameters (`removedCount = 0`), whether or not
the second pass succeeds. -/
theorem cleanUrl_idempotent_removedCount {s cu : String}
    (hs : (cleanUrl s).success = true) (hcu : (cleanUrl s).cleanedUrl = some cu) :
    (cleanUrl cu).removedCount = 0 := by
  obtain ⟨hne, url, hp⟩ := cleanUrl_success_inv hs
  have heqc := cleanUrl_eq_cleanParsed hne hp
  rw [heqc] at hs hcu
  obtain ⟨base, hb⟩ := cleanParsed_success_base hs
  obtain ⟨fin, hwf, hrec, hu, hpw, hdisj, hquery⟩ := cleanParsed_shape (parse_wf hp) hb
  rw [hrec] at hcu
  have hcu2 : some fin.serialize = some cu := hcu
  injection hcu2 with hcu2
  subst hcu2
  apply cleanUrl_removedCount_no_tracking
  intro url2 hp2
  by_cases hsf : fin.search = "" ∧ fin.fragment = ""
  · have hnoq : ∀ c ∈ (jsTrim fin.serialize).data,
        (c == '?') = false ∧ (c == '#') = false :=
      fun c hc => serialize_noqf hwf hsf.1 hsf.2 c (jsTrim_mem c hc)
    have hse := parse_noq hp2 hnoq
    rw [URLRec.searchStr, if_pos hse, parseQuery_empty]
    rfl
  · have htrim : jsTrim fin.serialize = fin.serialize :=
      jsTrim_eq_self (serialize_head_not_ws hwf) (serialize_getLast_not_ws hwf hsf)
    rw [htrim] at hp2
    have hpf := serialize_parse hwf
    rw [hp2] at hpf
    injection hpf with hpf
    subst hpf
    rw [hquery]
    exact filter_not_filter _ _

theorem cleanUrl_idempotent_removedCount_witness :
    (cleanUrl "https://a.b/?utm_source=x&q=1").success = true ∧
    (cleanUrl "https://a.b/?utm_source=x&q=1").cleanedUrl = some "https://a.b/?q=1" ∧
    (cleanUrl "https://a.b/?q=1").removedCount = 0 :=
  ⟨by decide, by decide,
    cleanUrl_idempotent_removedCount (s := "https://a.b/?utm_source=x&q=1")
      (by decide) (by decide)⟩

/-- C4: for a non-empty hash whose percent-decoding succeeds, a decoded content
starting with `/` is returned as the original undecoded content; and with no
malformed-tracking signature and no `=` in the decoded content the original
content is likewise returned unchanged (pure anchors are never altered). -/
theorem cleanHashFragment_preserves {h d : String}
    (hne : h ≠ "") (hdec : decodeURIComponent h = some d) :
    (leadsWith ['/'] d.data = true → cleanHashFragment h = some h) ∧
    (looksLikeMalformedTracking h d = false → d.data.contains '=' = false →
      cleanHashFragment h = some h) := by
  rw [cleanHashFragment, if_neg hne, hdec]
  dsimp only
  constructor
  · intro hl
    rw [if_pos hl]
  · intro hm hc
    by_cases hl : leadsWith ['/'] d.data = true
    · rw [if_pos hl]
    · rw [if_neg hl, if_neg (by simp [hm])]
      by_cases hpz : startsWithPathLike d = true
      · rw [if_pos hpz]
      · rw [if_neg hpz, if_pos (by rw [hc]; rfl)]

theorem cleanHashFragment_preserves_witness :
    cleanHashFragment "section-1" = some "section-1" ∧
    cleanHashFragment "/dash/settings" = some "/dash/settings" :=
  ⟨(cleanHashFragment_preserves (h := "section-1") (d := "section-1")
      (by decide) (by decide)).2 (by decide) (by decide),
   (cleanHashFragment_preserves (h := "/dash/settings") (d := "/dash/settings")
      (by decide) (by decide)).1 (by decide)⟩

/-- C5 counterexample: `"/a=1&utm_source=2"` decodes to itself, matches no
malformed signature, is not path-like, contains `=`, and has a tracking key,
yet `cleanHashFragment` returns the original content (the decoded-slash branch
fires first), not the rebuilt non-matching pairs the claim predicts. -/
theorem cleanHashFragment_slash_cex :
    decodeURIComponent "/a=1&utm_source=2" = some "/a=1&utm_source=2" ∧
    looksLikeMalformedTracking "/a=1&utm_source=2" "/a=1&utm_source=2" = false ∧
    startsWithPathLike "/a=1&utm_source=2" = false ∧
    ("/a=1&utm_source=2" : String).data.contains '=' = true ∧
    (parseQuery "/a=1&utm_source=2").any (fun p => isTrackingParam p.1) = true ∧
    cleanHashFragment "/a=1&utm_source=2" = some "/a=1&utm_source=2" ∧
    serializeQuery ((parseQuery "/a=1&utm_source=2").filter
      (fun p => !isTrackingParam p.1)) ≠ "/a=1&utm_source=2" ∧
    serializeQuery ((parseQuery "/a=1&utm_source=2").filter
      (fun p => !isTrackingParam p.1)) ≠ "" := by
  decide

/-- C5 (amended): for a non-empty hash that decodes successfully, whose decoded
content does not start with `/`, matches no malformed signature, is not of the
`anchor?params` shape, and contains `=`: with no tracking key the original
undecoded content is returned; with a tracking key the non-matching pairs are
rebuilt by standard query serialization, or `null` when none remain. -/
theorem cleanHashFragment_query_branch {h d : String}
    (hne : h ≠ "") (hdec : decodeURIComponent h = some d)
    (hslash : leadsWith ['/'] d.data = false)
    (hmal : looksLikeMalformedTracking h d = false)
    (hpath : startsWithPathLike d = false)
    (heqs : d.data.contains '=' = true) :
    ((parseQuery d).any (fun p => isTrackingParam p.1) = false →
      cleanHashFragment h = some h) ∧
    ((parseQuery d).any (fun p => isTrackingParam p.1) = true →
      cleanHashFragment h =
        (if serializeQuery ((parseQuery d).filter (fun p => !isTrackingParam p.1)) = ""
          then none
          else some (serializeQuery
            ((parseQuery d).filter (fun p => !isTrackingParam p.1))))) := by
  rw [cleanHashFragment, if_neg hne, hdec]
  dsimp only
  rw [if_neg (by simp [hslash]), if_neg (by simp [hmal]), if_neg (by simp [hpath]),
    if_neg (by rw [heqs]; simp)]
  constructor
  · intro ha
    rw [if_pos (by simp [ha])]
  · intro ha
    rw [if_neg (by simp [ha])]

theorem cleanHashFragment_query_branch_witness :
    cleanHashFragment "a=1&utm_source=2" = some "a=1" := by
  have h := (cleanHashFragment_query_branch (h := "a=1&utm_source=2")
      (d := "a=1&utm_source=2") (by decide) (by decide) (by decide) (by decide)
      (by decide) (by decide)).2 (by decide)
  rw [h]
  decide

/-- C6: `cleanUrl` is total and honours its error contract: missing or empty
input yields the invalid-input failure, a string that fails validation yields
the invalid-format failure, every failure carries `cleanedUrl = none` and a
non-null error, and every success carries a `cleanedUrl` that reparses. -/
theorem cleanUrl_error_contract :
    (cleanUrlJS none).success = false ∧
    (cleanUrlJS none).error = some "Invalid URL: URL must be a non-empty string" ∧
    (cleanUrlJS none).cleanedUrl = none ∧
    (cleanUrl "").success = false ∧
    (cleanUrl "").error = some "Invalid URL: URL must be a non-empty string" ∧
    (cleanUrl "").cleanedUrl = none ∧
    (∀ s, s ≠ "" → isValidUrl (jsTrim s) = false →
      cleanUrl s = invalidFormatResult s ∧
      (invalidFormatResult s).error = some "Invalid URL: Not a properly formatted URL" ∧
      (invalidFormatResult s).success = false ∧
      (invalidFormatResult s).cleanedUrl = none) ∧
    (∀ s, (cleanUrl s).success = false →
      (cleanUrl s).cleanedUrl = none ∧ (cleanUrl s).error ≠ none) ∧
    (∀ s, (cleanUrl s).success = true →
      ∃ fin : URLRec, (cleanUrl s).cleanedUrl = some fin.serialize ∧
        parseUrl fin.serialize = some fin) := by
  refine ⟨rfl, rfl, rfl, rfl, rfl, rfl, ?_, ?_, ?_⟩
  · intro s hne hv
    refine ⟨?_, rfl, rfl, rfl⟩
    rw [cleanUrl, if_neg hne]
    dsimp only
    rw [hv, if_neg (by simp)]
  · intro s hsf
    by_cases he : s = ""
    · rw [cleanUrl, if_pos he]
      exact ⟨rfl, by simp [invalidInputResult]⟩
    · rw [cleanUrl, if_neg he] at hsf ⊢
      dsimp only at hsf ⊢
      by_cases hv : isValidUrl (jsTrim s) = true
      · rw [hv, if_pos rfl] at hsf ⊢
        cases hp : parseUrl (jsTrim s) with
        | none =>
          exact ⟨rfl, by simp [invalidFormatResult]⟩
        | some url =>
          rw [hp] at hsf
          dsimp only at hsf ⊢
          rw [cleanParsed] at hsf ⊢
          dsimp only at hsf ⊢
          cases hb : parseUrl (url.origin ++ url.pathname) with
          | none =>
            exact ⟨rfl, by simp [processingErrorResult]⟩
          | some base =>
            rw [hb] at hsf
            simp at hsf
      · rw [isValid_false_of_not hv, if_neg (by simp)] at hsf ⊢
        exact ⟨rfl, by simp [invalidFormatResult]⟩
  · intro s hst
    obtain ⟨hne, url, hp⟩ := cleanUrl_success_inv hst
    have heqc := cleanUrl_eq_cleanParsed hne hp
    rw [heqc] at hst ⊢
    obtain ⟨base, hb⟩ := cleanParsed_success_base hst
    obtain ⟨fin, hwf, hrec, _, _, _, _⟩ := cleanParsed_shape (parse_wf hp) hb
    rw [hrec]
    exact ⟨fin, rfl, serialize_parse hwf⟩

theorem cleanUrl_error_contract_witness :
    cleanUrl "notaurl" = invalidFormatResult "notaurl" ∧
    ∃ fin : URLRec, (cleanUrl "https://a.b/").cleanedUrl = some fin.serialize ∧
      parseUrl fin.serialize = some fin :=
  ⟨(cleanUrl_error_contract.2.2.2.2.2.2.1 "notaurl" (by decide) (by decide)).1,
   cleanUrl_error_contract.2.2.2.2.2.2.2.2 "https://a.b/" (by decide)⟩

/-- C7: `cleanUrls` raises the array-contract error exactly on non-array input,
and on arrays it maps `cleanUrl` element-wise, preserving length and order
(no element aborts the batch: the result is always a full map). -/
theorem cleanUrls_contract :
    cleanUrlsJS none = Except.error "Input must be an array of URLs" ∧
    (∀ l, cleanUrlsJS (some l) = Except.ok (cleanUrls l)) ∧
    cleanUrls [] = [] ∧
    (∀ l, (cleanUrls l).length = l.length) ∧
    (∀ (l : List String) (i : Nat), (cleanUrls l)[i]? = (l[i]?).map cleanUrl) := by
  refine ⟨rfl, fun l => rfl, rfl, fun l => ?_, fun l i => ?_⟩
  · rw [cleanUrls, List.length_map]
  · rw [cleanUrls, List.getElem?_map]

/-- C8 counterexample: `mailto:foo@bar.com` passes `isValidUrl` (the generic
grammar parses it) but `cleanUrl` fails on it, because its origin is `"null"`
and rebuilding from `origin + pathname` throws; so non-HTTP schemes are not all
processed to success. -/
theorem cleanUrl_nonhttp_cex :
    isValidUrl "mailto:foo@bar.com" = true ∧
    (cleanUrl "mailto:foo@bar.com").success = false := by
  decide

/-- C8 (amended): validity and processing are scheme-agnostic — every string
whose trimmed form parses under the generic grammar (any scheme) passes
validation and is processed by the same `cleanParsed` pipeline; success then
depends only on the origin+pathname rebuild, not on the scheme being HTTP. -/
theorem cleanUrl_scheme_agnostic {s : String} {url : URLRec} (hs : s ≠ "")
    (hp : parseUrl (jsTrim s) = some url) :
    isValidUrl (jsTrim s) = true ∧ cleanUrl s = cleanParsed s url :=
  ⟨by rw [isValidUrl, hp]; rfl, cleanUrl_eq_cleanParsed hs hp⟩

theorem cleanUrl_scheme_agnostic_witness :
    (isValidUrl (jsTrim "ftp://x.y/a?utm_source=1") = true ∧
      cleanUrl "ftp://x.y/a?utm_source=1" =
        cleanParsed "ftp://x.y/a?utm_source=1"
          ⟨"ftp", "", "", some "x.y", none, "/a", "utm_source=1", ""⟩) ∧
    (cleanUrl "ftp://x.y/a?utm_source=1").success = true ∧
    (cleanUrl "ftp://x.y/a?utm_source=1").removedParams = [("utm_source", "1")] :=
  ⟨cleanUrl_scheme_agnostic (by decide) (by decide), by decide, by decide⟩

/-- C9: `cleanHashFragment` never returns the empty string — every result is
`none` or a non-empty string. -/
theorem cleanHashFragment_ne_empty (h : String) :
    cleanHashFragment h = none ∨
      ∃ s, cleanHashFragment h = some s ∧ s ≠ "" := by
  rw [cleanHashFragment]
  by_cases hne : h = ""
  · rw [if_pos hne]
    exact Or.inl rfl
  · rw [if_neg hne]
    cases hdec : decodeURIComponent h with
    | none => exact Or.inr ⟨h, rfl, hne⟩
    | some d =>
      dsimp only
      by_cases h1 : leadsWith ['/'] d.data = true
      · rw [if_pos h1]
        exact Or.inr ⟨h, rfl, hne⟩
      · rw [if_neg h1]
        by_cases h2 : looksLikeMalformedTracking h d = true
        · rw [if_pos h2]
          exact Or.inl rfl
        · rw [if_neg h2]
          by_cases h3 : startsWithPathLike d = true
          · rw [if_pos h3]
            exact Or.inr ⟨h, rfl, hne⟩
          · rw [if_neg h3]
            by_cases h4 : (!d.data.contains '=') = true
            · rw [if_pos h4]
              exact Or.inr ⟨h, rfl, hne⟩
            · rw [if_neg h4]
              by_cases h5 : (!(parseQuery d).any fun p => isTrackingParam p.1) = true
              · rw [if_pos h5]
                exact Or.inr ⟨h, rfl, hne⟩
              · rw [if_neg h5]
                by_cases h6 : serializeQuery ((parseQuery d).filter
                    fun p => !isTrackingParam p.1) = ""
                · rw [if_pos h6]
                  exact Or.inl rfl
                · rw [if_neg h6]
                  exact Or.inr ⟨_, rfl, h6⟩

/-- C10: whenever `cleanUrl` succeeds on a URL carrying userinfo credentials,
the cleaned URL's record has empty username and password (the rebuild from
`origin + pathname` drops them), no `removedParams` entry records the loss, and
`hasChanges` is `false` when no tracking parameter was removed. -/
theorem cleanUrl_drops_credentials {s : String} {url : URLRec}
    (hp : parseUrl (jsTrim s) = some url)
    (hs : (cleanUrl s).success = true)
    (hcred : url.username ≠ "" ∨ url.password ≠ "") :
    ∃ fin : URLRec, (cleanUrl s).cleanedUrl = some fin.serialize ∧
      fin.username = "" ∧ fin.password = "" ∧
      (cleanUrl s).removedParams =
        (parseQuery url.searchStr).filter (fun p => isTrackingParam p.1) ∧
      ((parseQuery url.searchStr).filter (fun p => isTrackingParam p.1) = [] →
        (cleanUrl s).hasChanges = some false) := by
  obtain ⟨hne, url', hp'⟩ := cleanUrl_success_inv hs
  rw [hp] at hp'
  injection hp' with hud
  subst hud
  have heqc := cleanUrl_eq_cleanParsed hne hp
  rw [heqc] at hs ⊢
  obtain ⟨base, hb⟩ := cleanParsed_success_base hs
  have w := parse_wf hp
  obtain ⟨fin, hwf, hrec, hu, hpw, hdisj, hquery⟩ := cleanParsed_shape w hb
  obtain ⟨hst, hhost⟩ : ∃ hst, url.host = some hst := by
    cases hh : url.host with
    | none =>
      obtain ⟨h1, h2, _⟩ := w.host_none_ui hh
      rcases hcred with hc | hc
      · exact absurd h1 hc
      · exact absurd h2 hc
    | some hst => exact ⟨hst, rfl⟩
  have hb0 : base.username = "" ∧ base.password = "" := by
    by_cases ho : hasOriginScheme url.scheme = true
    · have hser : url.origin ++ url.pathname =
          ({ url with username := "", password := "", search := "", fragment := "" } :
            URLRec).serialize := by
        rw [str_eq_iff_data, data_append, URLRec.origin, hhost]
        dsimp only
        rw [if_pos ho, URLRec.serialize]
        dsimp only
        rw [searchPart, fragmentPart]
        dsimp only
        rw [if_pos rfl, if_pos rfl, hostPart]
        dsimp only
        rw [userinfoPart]
        dsimp only
        rw [if_pos ⟨rfl, rfl⟩]
        simp [List.append_assoc, portPart, URLRec.pathname]
      have hb2 := serialize_parse (stripped_wf w)
      rw [← hser, hb] at hb2
      injection hb2 with hb2
      constructor
      · rw [hb2]
      · rw [hb2]
    · have ho2 : url.origin = "null" := by
        rw [URLRec.origin, hhost]
        dsimp only
        rw [if_neg ho]
      have hnone : parseUrl (url.origin ++ url.pathname) = none := by
        rw [ho2]
        exact null_path_parse_none (w.host_path hst hhost)
      rw [hnone] at hb
      cases hb
  rw [hrec]
  refine ⟨fin, rfl, hu.trans hb0.1, hpw.trans hb0.2, rfl, ?_⟩
  intro hfil
  have hch : some (decide (((parseQuery url.searchStr).filter
      (fun p => isTrackingParam p.1)).length > 0)) = some false := by
    rw [hfil]
    rfl
  exact hch

theorem cleanUrl_drops_credentials_witness :
    parseUrl (jsTrim "https://u:p@h.x/?a=1") =
      some ⟨"https", "u", "p", some "h.x", none, "/", "a=1", ""⟩ ∧
    (cleanUrl "https://u:p@h.x/?a=1").success = true ∧
    ∃ fin : URLRec, (cleanUrl "https://u:p@h.x/?a=1").cleanedUrl = some fin.serialize ∧
      fin.username = "" ∧ fin.password = "" ∧
      (cleanUrl "https://u:p@h.x/?a=1").removedParams =
        (parseQuery (⟨"https", "u", "p", some "h.x", none, "/", "a=1", ""⟩ :
          URLRec).searchStr).filter (fun p => isTrackingParam p.1) ∧
      ((parseQuery (⟨"https", "u", "p", some "h.x", none, "/", "a=1", ""⟩ :
          URLRec).searchStr).filter (fun p => isTrackingParam p.1) = [] →
        (cleanUrl "https://u:p@h.x/?a=1").hasChanges = some false) :=
  ⟨by decide, by decide,
    cleanUrl_drops_credentials (by decide) (by decide) (Or.inl (by decide))⟩

end CleanUrl
